import Mathlib

/-!
Verification of the MarkDB chunking / persistence / export pipeline.

The Python sources (src/MarkDB/utils.py, db.py, export_md.py, process_img.py,
process_pdf.py, process_docx.py, process_xlsx.py) are shallowly embedded here.
Strings are modelled as `List Char` (ASCII-faithful: Python's Unicode
`str.isdigit`/`str.isalpha` classes are modelled by `Char.isDigit`/`Char.isAlpha`,
which agree on ASCII).  Python floats only occur in one place
(`sum(isalpha)/len < 0.5` in `detect_chunk_type`); that comparison is modelled
exactly by the integer comparison `2 * alpha < len`, which agrees with the
float computation for all string lengths below 2^52.  Fallible Python code
(raised exceptions) is modelled with `Option`.
-/

/-- Strings are lists of characters in this development. -/
abbrev Str := List Char

/-- Coerce a Lean string literal to the `List Char` model. -/
def str (s : String) : Str := s.data

/-- Python's whitespace class `string.whitespace` = `'\t\n\x0b\x0c\r '`
(the class used by `str.strip`, `str.split()` and `textwrap`). -/
def isPyWs (c : Char) : Bool :=
  c = '\t' || c = '\n' || c = '\x0b' || c = '\x0c' || c = '\r' || c = ' '

/-- Python `needle in haystack` (substring containment). -/
def listContains (pat s : Str) : Bool :=
  s.tails.any (fun t => pat.isPrefixOf t)

/-- Number of positions of `s` at which `pat` occurs as a substring. -/
def countOcc (pat s : Str) : Nat :=
  (s.tails.filter (fun t => pat.isPrefixOf t)).length

/-- Decimal rendering of a natural number (Python `str(n)` for `n ≥ 0`). -/
def natStr (n : Nat) : Str := Nat.toDigits 10 n

/-- Decimal rendering of an integer (Python `str(n)`). -/
def intStr : Int → Str
  | Int.ofNat n => natStr n
  | Int.negSucc n => '-' :: natStr (n + 1)

/-- Python f-string interpolation of an optional integer
(`None` prints as the literal `None`). -/
def optIntStr : Option Int → Str
  | none => str "None"
  | some n => intStr n

/-- Python f-string interpolation of an optional string. -/
def optStrStr : Option Str → Str
  | none => str "None"
  | some s => s

/-- Python `s.strip()` restricted to the whitespace class above. -/
def pyStrip (s : Str) : Str :=
  ((s.dropWhile isPyWs).reverse.dropWhile isPyWs).reverse

/-- Python `s.split('\n')`: splits at every newline, keeping empty pieces;
the empty string yields `[""]`. -/
def splitNl : Str → List Str
  | [] => [[]]
  | c :: cs =>
    if c = '\n' then [] :: splitNl cs
    else
      match splitNl cs with
      | t :: ts => (c :: t) :: ts
      | [] => [[c]]

/-! ## Chunk classifier — `detect_chunk_type` (src/MarkDB/utils.py lines 113-122,
identical copy in src/MarkDB.py).

```python
def detect_chunk_type(chunk: str) -> str:
    if "```" in chunk:
        return "código"
    elif any(char.isdigit() for char in chunk) and sum(c.isalpha() for c in chunk) / len(chunk) < 0.5:
        return "dados numéricos"
    elif len(chunk.split('\n')) > 5 and all(len(line) < 100 for line in chunk.split('\n')):
        return "lista"
    else:
        return "texto"
```

The division `sum(...) / len(chunk)` raises `ZeroDivisionError` when
`len(chunk) = 0`; the embedding returns `none` in that case (the `and`
short-circuit is modelled faithfully: the division is reached only when the
chunk contains a digit). -/

/-- The `lista` / `texto` tail of the classifier. -/
def listaOrTexto (chunk : Str) : Str :=
  if (splitNl chunk).length > 5 && (splitNl chunk).all (fun line => line.length < 100)
  then str "lista"
  else str "texto"

/-- `detect_chunk_type`; `none` models the (unreachable) `ZeroDivisionError`. -/
def detect_chunk_type (chunk : Str) : Option Str :=
  if listContains (str "```") chunk then some (str "código")
  else if chunk.any Char.isDigit then
    if chunk.length = 0 then none
    else if 2 * (chunk.filter Char.isAlpha).length < chunk.length
    then some (str "dados numéricos")
    else some (listaOrTexto chunk)
  else some (listaOrTexto chunk)

/-- Modelled from the spec (§4.1): the classifier contract as written, with
the alphabetic ratio taken as exact rational arithmetic.  Used only to compare
the code's classifier against the spec's words. -/
def spec_detect_chunk_type (chunk : Str) : Str :=
  if listContains (str "```") chunk then str "código"
  else if chunk.any Char.isDigit ∧
      ((chunk.filter Char.isAlpha).length : ℚ) / (chunk.length : ℚ) < 1 / 2 then
    str "dados numéricos"
  else if (splitNl chunk).length > 5 ∧ ∀ line ∈ splitNl chunk, line.length < 100 then
    str "lista"
  else str "texto"

/-! ## Table formatter — `format_table` (src/MarkDB/utils.py lines 125-138,
identical copy in src/MarkDB.py).

```python
def format_table(matrix: List[List]) -> str:
    if not matrix or len(matrix) < 2:
        return ""
    markdown = "| " + " | ".join(str(cell) for cell in matrix[0]) + " |\n"
    markdown += "| " + " | ".join(["---"] * len(matrix[0])) + " |\n"
    for row in matrix[1:]:
        markdown += "| " + " | ".join(str(cell) for cell in row) + " |\n"
    return markdown
```

Cells reaching this function are strings or `None` (PDF `table.extract()` may
yield `None` cells); `str(cell)` is modelled by `cellStr`. -/

/-- A table cell: a string or Python `None`. -/
abbrev Cell := Option Str

/-- Python `str(cell)` for a cell. -/
def cellStr : Cell → Str
  | none => str "None"
  | some s => s

/-- One Markdown pipe-table row: `"| " + " | ".join(cells) + " |\n"`. -/
def rowMd (row : List Cell) : Str :=
  str "| " ++ List.intercalate (str " | ") (row.map cellStr) ++ str " |\n"

/-- The separator row `"| " + " | ".join(["---"] * n) + " |\n"`. -/
def sepRowMd (n : Nat) : Str :=
  str "| " ++ List.intercalate (str " | ") (List.replicate n (str "---")) ++ str " |\n"

/-- `format_table`. -/
def format_table (matrix : List (List Cell)) : Str :=
  if matrix.length < 2 then []
  else
    match matrix with
    | [] => []
    | header :: rest =>
        rowMd header ++ sepRowMd header.length ++ (rest.map rowMd).flatten

/-! ## Data model — the `chunks` table (src/MarkDB/db.py lines 40-52).

A stored row carries the auto-assigned `id`; an extractor-produced record
(the tuple bound by the `INSERT INTO chunks (...) VALUES (?,...,?)`
statements) has no `id` yet.  `page_number` and `chunk_number` are nullable
`INTEGER` columns. -/

/-- A stored row of the `chunks` table. -/
structure Row where
  id : Nat
  file_name : Str
  page_number : Option Int
  chunk_number : Option Int
  content : Str
  chunk_content : Str
  upload_time : Str
  image_description : Option Str
  image_data : Option Str
deriving DecidableEq, Repr

/-- The tuple inserted by an extractor (no `id`; SQLite assigns it). -/
structure InsRow where
  file_name : Str
  page_number : Option Int
  chunk_number : Option Int
  content : Str
  chunk_content : Str
  upload_time : Str
  image_description : Option Str
  image_data : Option Str
deriving DecidableEq, Repr

/-- The whole store: the rows of the `chunks` table in rowid order. -/
abbrev Db := List Row

/-! ## Keyword search — `MarkDB.search_chunks` (src/MarkDB/db.py lines 96-106).

```python
def search_chunks(self, keyword: str, limit: int = 10) -> List[Dict]:
    ... c.execute('SELECT * FROM chunks WHERE chunk_content LIKE ? LIMIT ?',
                  (f'%{keyword}%', limit))
```

SQLite `LIKE` is case-insensitive on the ASCII letters and treats `%` as
"any sequence" and `_` as "any single character"; nonnegative limits are
modelled. -/

/-- ASCII lower-casing, as SQLite's default `LIKE` applies to both sides. -/
def asciiLower (c : Char) : Char :=
  if 'A' ≤ c ∧ c ≤ 'Z' then Char.ofNat (c.toNat + 32) else c

/-- SQLite `LIKE` pattern matching (default, no ESCAPE clause): `%` matches
any sequence (equivalently, the rest of the pattern matches some suffix),
`_` matches one character, anything else matches case-insensitively. -/
def sqlLikeMatch : Str → Str → Bool
  | [], s => s.isEmpty
  | p :: ps, s =>
    if p = '%' then s.tails.any (fun t => sqlLikeMatch ps t)
    else if p = '_' then
      match s with
      | [] => false
      | _ :: ss => sqlLikeMatch ps ss
    else
      match s with
      | [] => false
      | c :: ss => (asciiLower p = asciiLower c) && sqlLikeMatch ps ss

/-- `search_chunks`: rows whose `chunk_content` matches `'%keyword%'`,
truncated to `limit` rows. -/
def search_chunks (keyword : Str) (limit : Nat) (db : Db) : List Row :=
  (db.filter (fun r => sqlLikeMatch (str "%" ++ keyword ++ str "%") r.chunk_content)).take limit

/-- Case-insensitive substring containment (ASCII folding), the spec's reading
of `LIKE '%keyword%'` for wildcard-free keywords. -/
def containsCI (pat s : Str) : Bool :=
  listContains (pat.map asciiLower) (s.map asciiLower)

/-! ## Export ordering — `ORDER BY page_number, chunk_number`
(src/MarkDB/export_md.py lines 48-52, src/MarkDB/utils.py lines 347-351).

SQLite sorts ascending with `NULL` lowest in each key.  Ties beyond the two
keys are in unspecified order; the model uses a stable sort of the rowid-order
list, which realises one of the permitted orders. -/

/-- `NULL`-lowest strict order on a nullable integer column. -/
def optLT : Option Int → Option Int → Prop
  | none, none => False
  | none, some _ => True
  | some _, none => False
  | some a, some b => a < b

instance : DecidableRel optLT := fun a b => by
  cases a <;> cases b <;> simp [optLT] <;> infer_instance

/-- Reflexive closure of `optLT`. -/
def optLE (a b : Option Int) : Prop := optLT a b ∨ a = b

instance : DecidableRel optLE := fun a b => by
  unfold optLE; infer_instance

/-- The sort key of a row. -/
def rkey (r : Row) : Option Int × Option Int := (r.page_number, r.chunk_number)

/-- Lexicographic `ORDER BY page_number, chunk_number` (non-strict). -/
def keyLE (k k' : Option Int × Option Int) : Prop :=
  optLT k.1 k'.1 ∨ (k.1 = k'.1 ∧ optLE k.2 k'.2)

/-- Lexicographic strict version. -/
def keyLT (k k' : Option Int × Option Int) : Prop :=
  optLT k.1 k'.1 ∨ (k.1 = k'.1 ∧ optLT k.2 k'.2)

instance : DecidableRel keyLE := fun k k' => by
  unfold keyLE; infer_instance

instance : DecidableRel keyLT := fun k k' => by
  unfold keyLT; infer_instance

/-- Row comparison used by the `ORDER BY`. -/
def rowLE (r s : Row) : Prop := keyLE (rkey r) (rkey s)

instance : DecidableRel rowLE := fun r s => by
  unfold rowLE; infer_instance

/-- The sort performed by the export query. -/
def sortRows (rows : List Row) : List Row := List.insertionSort rowLE rows

/-! ## Markdown export (src/MarkDB/export_md.py; src/MarkDB/utils.py lines
321-398 is a near-identical copy with the same `ORDER BY`, section layout and
data-URI format).  Python f-strings on `None` fields print the literal
`None`, modelled by `optIntStr` / `optStrStr`. -/

/-- One per-chunk section of `export_all_chunks_to_md`
(src/MarkDB/export_md.py lines 69-84). -/
def sectionOf (r : Row) : Str :=
  str "---\n"
  ++ str "**ID:** " ++ natStr r.id ++ str "\n\n"
  ++ str "**Nome do Arquivo:** " ++ r.file_name ++ str "\n\n"
  ++ str "**Página:** " ++ optIntStr r.page_number ++ str "\n\n"
  ++ str "**Chunk:** " ++ optIntStr r.chunk_number ++ str "\n\n"
  ++ str "**Tipo:** " ++ r.chunk_content ++ str "\n\n"
  ++ str "**Data de upload:** " ++ r.upload_time ++ str "\n\n"
  ++ (if r.chunk_content = str "imagem" then
        str "## Descrição da Imagem\n\n" ++ optStrStr r.image_description ++ str "\n\n"
        ++ (match r.image_data with
            | some d =>
              if d = [] then []
              else str "![Imagem](data:image/png;base64," ++ d ++ str ")\n\n"
            | none => [])
      else
        str "## Conteúdo\n\n" ++ r.content ++ str "\n\n")

/-- The rows the export query returns for `file_name`. -/
def exportRows (file_name : Str) (db : Db) : List Row :=
  sortRows (db.filter (fun r => r.file_name = file_name))

/-- `export_all_chunks_to_md` (src/MarkDB/export_md.py lines 42-89):
`None` when no row matches, else the Markdown text and suggested file name. -/
def export_all_chunks_to_md (file_name : Str) (db : Db) : Option (Str × Str) :=
  let rows := exportRows file_name db
  if rows = [] then none
  else
    some (str "# " ++ file_name ++ str "\n\n" ++ (rows.map sectionOf).flatten,
          str "documento_completo_" ++ file_name ++ str ".md")

/-- The single-chunk Markdown body (src/MarkDB/export_md.py lines 24-37;
note that here `image_data` is interpolated without the truthiness guard). -/
def buildChunkMd (r : Row) : Str :=
  str "# " ++ r.file_name ++ str "\n\n"
  ++ str "**ID:** " ++ natStr r.id ++ str "\n"
  ++ str "**Página:** " ++ optIntStr r.page_number ++ str "\n"
  ++ str "**Chunk:** " ++ optIntStr r.chunk_number ++ str "\n"
  ++ str "**Tipo:** " ++ r.chunk_content ++ str "\n"
  ++ str "**Data de upload:** " ++ r.upload_time ++ str "\n\n"
  ++ (if r.chunk_content = str "imagem" then
        str "## Descrição da Imagem\n" ++ optStrStr r.image_description ++ str "\n\n"
        ++ str "![Imagem](data:image/png;base64," ++ optStrStr r.image_data ++ str ")"
      else r.content)

/-- `export_chunk_to_md` (src/MarkDB/export_md.py lines 9-39):
`SELECT * FROM chunks WHERE id = ?` then the Markdown body. -/
def export_chunk_to_md (chunk_id : Nat) (db : Db) : Option (Str × Str) :=
  match db.find? (fun r => r.id = chunk_id) with
  | none => none
  | some r =>
    some (buildChunkMd r,
          str "chunk_" ++ natStr chunk_id ++ str "_" ++ r.file_name ++ str ".md")

/-! ## Word-wrap — CPython `textwrap.wrap(text, width)` with default options
(`expand_tabs=True`, `replace_whitespace=True`, `drop_whitespace=True`,
`break_long_words=True`, `break_on_hyphens=True`, empty indents,
`max_lines=None`), as invoked by `process_pdf.py`, `process_docx.py` and the
async extractors in `utils.py`.  The word-separation regex `wordsep_re` is
modelled by an equivalent character scanner; regex character classes are
taken at their ASCII meaning (`\w` = alphanumeric or underscore, the letter
class `[^\d\W]` = alphabetic or underscore). -/

/-- `str.expandtabs()` with the default tab size 8: `col` is the current
column; newline and carriage return reset it. -/
def expandtabsAux : Nat → Str → Str
  | _, [] => []
  | col, c :: cs =>
    if c = '\t' then
      List.replicate (8 - col % 8) ' ' ++ expandtabsAux (col + (8 - col % 8)) cs
    else if c = '\n' ∨ c = '\r' then c :: expandtabsAux 0 cs
    else c :: expandtabsAux (col + 1) cs

/-- `TextWrapper._munge_whitespace`: expand tabs, then replace each
whitespace character by a single space. -/
def munge_whitespace (t : Str) : Str :=
  (expandtabsAux 0 t).map (fun c => if isPyWs c then ' ' else c)

/-- Regex `\w` (ASCII). -/
def isWordChar (c : Char) : Bool := c.isAlphanum || c = '_'

/-- The `wordsep_re` letter class `[^\d\W]` (ASCII). -/
def isLetterChar (c : Char) : Bool := c.isAlpha || c = '_'

/-- The `wordsep_re` word-punctuation class `[\w!"\'&.,?]`. -/
def isWordPunct (c : Char) : Bool :=
  isWordChar c || c = '!' || c = '"' || c = '\x27' || c = '&' || c = '.' ||
    c = ',' || c = '?'

/-- Does the character at index `i` of `s` exist and satisfy `p`? -/
def testAt (p : Char → Bool) (s : Str) (i : Nat) : Bool :=
  match s.drop i with
  | [] => false
  | c :: _ => p c

/-- Length of the leading run of `'-'`. -/
def leadDashes (s : Str) : Nat := (s.takeWhile (fun c => c = '-')).length

/-- Lookbehind of the hyphenated-word alternative
`-(?:(?<=[lt]{2}-)|(?<=[lt]-[lt]-))`, evaluated after the consumed `'-'`:
`ctx` lists the characters before that `'-'`, nearest first. -/
def hyphenLookbehind (ctx : Str) : Bool :=
  (testAt isLetterChar ctx 0 && testAt isLetterChar ctx 1) ||
  (testAt isLetterChar ctx 0 && testAt (fun c => c = '-') ctx 1 &&
    testAt isLetterChar ctx 2)

/-- Lookahead `(?=[lt]-?[lt])` after the consumed `'-'`. -/
def hyphenLookahead (after : Str) : Bool :=
  testAt isLetterChar after 0 &&
    (testAt isLetterChar after 1 ||
     (testAt (fun c => c = '-') after 1 && testAt isLetterChar after 2))

/-- Lookahead `(?=-{2,}\w)`: with backtracking this succeeds exactly when the
full leading dash run has length at least 2 and is followed by a word
character (a shorter run prefix is followed by another `'-'`, not `\w`). -/
def emDashAhead (s : Str) : Bool :=
  2 ≤ leadDashes s && testAt isWordChar s (leadDashes s)

/-- The lazy word alternative `[^ \t..]+?(?:...)` of `wordsep_re`: `acc` is the
reversed, nonempty consumed prefix, `pre` the reversed characters preceding
the match, and the third argument the unconsumed rest.  The three match
endings are tried in the regex's alternation order: hyphenated break,
end-of-word, em-dash lookahead; otherwise one more (non-whitespace) character
is consumed. -/
def wordScanGo (pre : Str) (acc : Str) : Str → Str × Str
  | [] => (acc.reverse, [])
  | c :: cs =>
    if c = '-' && hyphenLookbehind (acc ++ pre) && hyphenLookahead cs then
      (acc.reverse ++ ['-'], cs)
    else if isPyWs c then
      (acc.reverse, c :: cs)
    else if isWordPunct (acc.headD ' ') && emDashAhead (c :: cs) then
      (acc.reverse, c :: cs)
    else
      wordScanGo pre (c :: acc) cs

/-- `wordsep_re.split` (with empty pieces filtered out, as in
`TextWrapper._split`): at every position one of the three top-level
alternatives matches — a whitespace run, an em-dash separator `(?<=wp)-{2,}(?=\w)`,
or a word.  Each produced chunk consumes at least one character, so
`fuel = length + 1` suffices. -/
def wordsep_splitAux : Nat → Str → Str → List Str
  | 0, _, _ => []
  | fuel + 1, pre, cs =>
    match cs with
    | [] => []
    | c :: cs' =>
      if isPyWs c then
        let run := (c :: cs').takeWhile isPyWs
        run :: wordsep_splitAux fuel (run.reverse ++ pre) ((c :: cs').dropWhile isPyWs)
      else if isWordPunct (pre.headD ' ') && emDashAhead (c :: cs') then
        let run := (c :: cs').takeWhile (fun x => x = '-')
        run :: wordsep_splitAux fuel (run.reverse ++ pre)
          ((c :: cs').dropWhile (fun x => x = '-'))
      else
        match wordScanGo pre [c] cs' with
        | (w, rest) => w :: wordsep_splitAux fuel (w.reverse ++ pre) rest

/-- `TextWrapper._split` on munged text. -/
def wordsep_split (t : Str) : List Str :=
  wordsep_splitAux (t.length + 1) [] t

/-- Python `s.rfind('-')`: index of the last `'-'`, if any. -/
def rfindDash : Str → Option Nat
  | [] => none
  | c :: cs =>
    match rfindDash cs with
    | some i => some (i + 1)
    | none => if c = '-' then some 0 else none

/-- `TextWrapper._handle_long_word` with `break_long_words = True` and
`break_on_hyphens = True`: returns the piece moved to the current line and
the remainder of the chunk. -/
def handle_long_word (width curLen : Nat) (chunk : Str) : Str × Str :=
  let spaceLeft := if width < 1 then 1 else width - curLen
  let en :=
    if spaceLeft < chunk.length then
      match rfindDash (chunk.take spaceLeft) with
      | some hy =>
        if 0 < hy && (chunk.take hy).any (fun c => c ≠ '-') then hy + 1
        else spaceLeft
      | none => spaceLeft
    else spaceLeft
  (chunk.take en, chunk.drop en)

/-- The inner greedy loop of `_wrap_chunks`: pops chunks while they fit. -/
def greedyTake (width : Nat) : Nat → List Str → List Str → List Str × Nat × List Str
  | curLen, acc, [] => (acc, curLen, [])
  | curLen, acc, c :: cs =>
    if curLen + c.length ≤ width then greedyTake width (curLen + c.length) (acc ++ [c]) cs
    else (acc, curLen, c :: cs)

/-- The `drop_whitespace` deletion of a trailing all-whitespace piece of the
current line. -/
def dropTrailWs (cur : List Str) : List Str :=
  match cur.getLast? with
  | some last => if last.all isPyWs then cur.dropLast else cur
  | none => cur

/-- Fuel measure for the outer `while` loop of `_wrap_chunks`: every
iteration removes at least one character or one chunk. -/
def chunksMeasure (chunks : List Str) : Nat :=
  (chunks.map List.length).sum + chunks.length

/-- One iteration of the outer `while` loop of `_wrap_chunks`: drop a
leading whitespace chunk (after the first line), greedily fill the current
line, split an over-long head chunk, drop trailing whitespace from the line,
and emit it if nonempty.  Returns the new line list and the remaining
chunks. -/
def wrapStep (width : Nat) (lines : List Str) (c0 : Str) (rest0 : List Str) :
    List Str × List Str :=
  let chunks0 := if c0.all isPyWs && !lines.isEmpty then rest0 else c0 :: rest0
  match greedyTake width 0 [] chunks0 with
  | (cur, curLen, rest) =>
    let step :=
      match rest with
      | c :: cs =>
        if width < c.length then
          match handle_long_word width curLen c with
          | (tk, dr) => (cur ++ [tk], dr :: cs)
        else (cur, rest)
      | [] => (cur, rest)
    let cur3 := dropTrailWs step.fst
    ((if cur3 ≠ [] then lines ++ [cur3.flatten] else lines), step.snd)

/-- `TextWrapper._wrap_chunks` (defaults), fuel-bounded by `chunksMeasure`. -/
def wrap_chunksGo (width : Nat) : Nat → List Str → List Str → List Str
  | 0, lines, _ => lines
  | fuel + 1, lines, chunks =>
    match chunks with
    | [] => lines
    | c0 :: rest0 =>
      match wrapStep width lines c0 rest0 with
      | (lines', rest2) =>
        match rest2 with
        | [] => lines'
        | _ => wrap_chunksGo width fuel lines' rest2

/-- `textwrap.wrap(text, width)`; `none` models the `ValueError` raised for a
non-positive width. -/
def textwrap_wrap (t : Str) (width : Nat) : Option (List Str) :=
  if width = 0 then none
  else
    let chunks := wordsep_split (munge_whitespace t)
    some (wrap_chunksGo width (chunksMeasure chunks + 1) [] chunks)

/-! ## Image extraction and captioning (src/MarkDB/process_img.py,
src/MarkDB/process_pdf.py).  The OpenAI client and the captioning network
call are the only external collaborators; they are modelled by parameters:
`hasClient` (whether `get_openai_client()` returns a client) and `caption`
(the outcome of `generate_image_description`: `none` for a missing key, a
service error or a raised exception — the function catches its own errors
and returns `None` — and `some s` for a response, possibly empty). -/

/-- The fixed placeholder description. -/
def placeholderDesc : Str := str "Descrição não disponível"

/-- Python `x or default` on the caption result combined with the
`try/except: pass` around the call: `None` and the empty string both fall
back to the default. -/
def pyOrDefault (c : Option Str) (d : Str) : Str :=
  match c with
  | none => d
  | some s => if s = [] then d else s

/-- `process_image_to_chunks` (src/MarkDB/process_img.py lines 11-52): with
no client configured it reports an error and returns `False` without
inserting anything; otherwise a `None` caption degrades to the placeholder
(this path checks `is None` only, not emptiness) and one "imagem" record with
`page_number = 1`, `chunk_number = 1` is inserted.  The pair is
(returned boolean, inserted records). -/
def process_image_to_chunks (hasClient : Bool) (caption : Option Str)
    (file_name b64 upload_time : Str) : Bool × List InsRow :=
  if !hasClient then (false, [])
  else
    let desc :=
      match caption with
      | none => placeholderDesc
      | some s => s
    (true,
     [{ file_name := file_name, page_number := some 1, chunk_number := some 1,
        content := str "**Arquivo**: " ++ file_name
          ++ str "\n**Tipo**: Imagem\n**Descrição**: " ++ desc,
        chunk_content := str "imagem", upload_time := upload_time,
        image_description := some desc, image_data := some b64 }])

/-- One "imagem" record of `process_page` (src/MarkDB/process_pdf.py lines
76-100): the description starts as the placeholder and is replaced only when
a client is configured and the captioning call returns a non-falsy value
(`generate_image_description(...) or image_description` inside
`try/except: pass`). -/
def pdf_image_record (hasClient : Bool) (caption : Option Str)
    (file_name : Str) (page_index chunk_counter : Nat) (upload_time b64 : Str) :
    InsRow :=
  let desc := if hasClient then pyOrDefault caption placeholderDesc else placeholderDesc
  { file_name := file_name, page_number := some ((page_index : Int) + 1),
    chunk_number := some (chunk_counter : Int),
    content := str "**Arquivo**: " ++ file_name ++ str "\n**Página**: "
      ++ natStr (page_index + 1) ++ str "\n**Chunk**: " ++ natStr chunk_counter
      ++ str "\n**Descrição**: " ++ desc,
    chunk_content := str "imagem", upload_time := upload_time,
    image_description := some desc, image_data := some b64 }

/-! ## DOCX extraction.  Two variants exist in the source:
the synchronous `process_docx_to_chunks` in src/MarkDB/process_docx.py
(inserts `page_number = 1`) and the asynchronous `process_docx_to_chunks`
in src/MarkDB/utils.py lines 246-289 (inserts `page_number = NULL`).
Exceptions are modelled by `Option`/the boolean result. -/

/-- Records of the synchronous DOCX extractor for the wrapped chunks,
numbered from `i` (Python `enumerate(chunks, 1)` starts `i = 1`):
`page_number = 1` on every insert.  `none` models an exception from the
classifier. -/
def docxSyncRecs (file_name upload_time : Str) : Nat → List Str → Option (List InsRow)
  | _, [] => some []
  | i, chunk :: rest =>
    match detect_chunk_type chunk with
    | none => none
    | some ty =>
      (docxSyncRecs file_name upload_time (i + 1) rest).map (fun recs =>
        { file_name := file_name, page_number := some 1,
          chunk_number := some (i : Int),
          content := str "**Arquivo**: " ++ file_name ++ str "\n**Chunk**: "
            ++ natStr i ++ str "\n\n" ++ pyStrip chunk,
          chunk_content := ty, upload_time := upload_time,
          image_description := none, image_data := none } :: recs)

/-- `process_docx_to_chunks` (src/MarkDB/process_docx.py lines 12-44):
paragraph texts joined with newlines, wrapped, classified, inserted with
`page_number = 1`.  (At runtime the module-level `datetime.now()` call would
raise `AttributeError` — `datetime` names the module there — before any
insert; the model renders the insert statements as written, taking the
upload time as a parameter.)  A raised exception gives `(False, [])`. -/
def process_docx_to_chunks (file_name : Str) (paras : List Str) (width : Nat)
    (upload_time : Str) : Bool × List InsRow :=
  let text := List.intercalate ['\n'] paras
  if pyStrip text = [] then (true, [])
  else
    match textwrap_wrap text width with
    | none => (false, [])
    | some chunks =>
      match docxSyncRecs file_name upload_time 1 chunks with
      | none => (false, [])
      | some recs => (true, recs)

/-- Records of one wrapped paragraph in the asynchronous DOCX extractor
(src/MarkDB/utils.py lines 258-269): consecutive chunk numbers from
`counter`, `page_number = NULL`. -/
def docxAsyncChunkRecs (file_name upload_time : Str) : Nat → List Str → Option (List InsRow)
  | _, [] => some []
  | counter, chunk :: rest =>
    match detect_chunk_type chunk with
    | none => none
    | some ty =>
      (docxAsyncChunkRecs file_name upload_time (counter + 1) rest).map (fun recs =>
        { file_name := file_name, page_number := none,
          chunk_number := some (counter : Int),
          content := str "**Arquivo**: " ++ file_name ++ str "\n**Chunk**: "
            ++ natStr counter ++ str "\n\n" ++ pyStrip chunk,
          chunk_content := ty, upload_time := upload_time,
          image_description := none, image_data := none } :: recs)

/-- The paragraph loop of the asynchronous DOCX extractor: each paragraph is
stripped and, when nonempty, wrapped and turned into records. -/
def docxAsyncParas (file_name upload_time : Str) (width : Nat) :
    Nat → List Str → Option (Nat × List InsRow)
  | counter, [] => some (counter, [])
  | counter, para :: rest =>
    let text := pyStrip para
    if text = [] then docxAsyncParas file_name upload_time width counter rest
    else
      match textwrap_wrap text width with
      | none => none
      | some chunks =>
        match docxAsyncChunkRecs file_name upload_time counter chunks with
        | none => none
        | some recs =>
          match docxAsyncParas file_name upload_time width
              (counter + chunks.length) rest with
          | none => none
          | some (counter', recs') => some (counter', recs ++ recs')

/-- The table loop of the asynchronous DOCX extractor (src/MarkDB/utils.py
lines 271-283): one "tabela" record per non-empty formatted table,
`page_number = NULL`. -/
def docxAsyncTables (file_name upload_time : Str) :
    Nat → List (List (List Cell)) → List InsRow
  | _, [] => []
  | counter, m :: rest =>
    let md := format_table m
    if md = [] then docxAsyncTables file_name upload_time counter rest
    else
      { file_name := file_name, page_number := none,
        chunk_number := some (counter : Int),
        content := str "**Arquivo**: " ++ file_name ++ str "\n**Chunk**: "
          ++ natStr counter ++ str "\n\n" ++ md,
        chunk_content := str "tabela", upload_time := upload_time,
        image_description := none, image_data := none }
        :: docxAsyncTables file_name upload_time (counter + 1) rest

/-- The asynchronous `process_docx_to_chunks` of src/MarkDB/utils.py
(lines 246-289): paragraphs then tables; an exception (`none`) aborts with no
inserts committed. -/
def process_docx_to_chunks_async (file_name : Str) (paras : List Str)
    (tables : List (List (List Cell))) (width : Nat) (upload_time : Str) :
    Option (List InsRow) :=
  match docxAsyncParas file_name upload_time width 1 paras with
  | none => none
  | some (counter, recs) =>
    some (recs ++ docxAsyncTables file_name upload_time counter tables)

/-! ## Claim C3/C4 — the classifier. -/

/-- The `lista`/`texto` tail, rephrased with a propositional condition. -/
theorem listaOrTexto_eq (chunk : Str) :
    listaOrTexto chunk =
      if (splitNl chunk).length > 5 ∧ ∀ line ∈ splitNl chunk, line.length < 100
      then str "lista" else str "texto" := by
  unfold listaOrTexto
  by_cases h : (splitNl chunk).length > 5 ∧ ∀ line ∈ splitNl chunk, line.length < 100
  · rw [if_pos h, if_pos]
    simp only [Bool.and_eq_true, decide_eq_true_eq, List.all_eq_true]
    exact ⟨by exact_mod_cast h.1, fun line hl => by simpa using h.2 line hl⟩
  · rw [if_neg h, if_neg]
    simp only [Bool.and_eq_true, decide_eq_true_eq, List.all_eq_true]
    intro hc
    exact h ⟨by exact_mod_cast hc.1, fun line hl => by simpa using hc.2 line hl⟩

/-- C3: for every input string the classifier returns exactly the tag chosen
by the spec's priority order — `código` on a triple-backtick fence, else
`dados numéricos` when a digit is present and the alphabetic ratio is below
0.5 (exact rational arithmetic), else `lista` when the string splits into
more than 5 lines all shorter than 100 characters, else `texto`. -/
theorem C3_classifier_matches_spec (chunk : Str) :
    detect_chunk_type chunk = some (spec_detect_chunk_type chunk) := by
  unfold detect_chunk_type spec_detect_chunk_type
  by_cases h1 : listContains (str "```") chunk = true
  · simp [h1]
  · by_cases h2 : chunk.any Char.isDigit = true
    · have hne : chunk ≠ [] := by
        intro h
        subst h
        simp at h2
      have hlen : chunk.length ≠ 0 := by
        simpa [List.length_eq_zero] using hne
      have hlenQ : (0 : ℚ) < (chunk.length : ℚ) := by
        exact_mod_cast Nat.pos_of_ne_zero hlen
      have key : (((chunk.filter Char.isAlpha).length : ℚ) / (chunk.length : ℚ) < 1 / 2) ↔
          (2 * (chunk.filter Char.isAlpha).length < chunk.length) := by
        rw [div_lt_div_iff₀ hlenQ (by norm_num : (0 : ℚ) < 2), one_mul]
        norm_cast
        omega
      by_cases h3 : 2 * (chunk.filter Char.isAlpha).length < chunk.length
      · rw [if_neg h1, if_neg h1, if_pos h2, if_neg hlen, if_pos h3,
            if_pos ⟨h2, key.mpr h3⟩]
      · have hnotspec : ¬ (chunk.any Char.isDigit = true ∧
            ((chunk.filter Char.isAlpha).length : ℚ) / (chunk.length : ℚ) < 1 / 2) := by
          intro hc
          exact h3 (key.mp hc.2)
        rw [if_neg h1, if_neg h1, if_pos h2, if_neg hlen, if_neg h3,
            if_neg hnotspec, listaOrTexto_eq]
    · have hnotspec : ¬ (chunk.any Char.isDigit = true ∧
          ((chunk.filter Char.isAlpha).length : ℚ) / (chunk.length : ℚ) < 1 / 2) := by
        intro hc
        exact h2 hc.1
      rw [if_neg h1, if_neg h1, if_neg h2, if_neg hnotspec, listaOrTexto_eq]

/-- C4: the classifier never raises — the empty string takes the `texto`
branch (the `and` short-circuit prevents the division by the zero length),
and on every input the result is defined (`isSome`, i.e. no
`ZeroDivisionError` is ever reached). -/
theorem C4_classifier_empty_safe :
    detect_chunk_type (str "") = some (str "texto") ∧
    ∀ chunk : Str, (detect_chunk_type chunk).isSome := by
  refine ⟨by decide, fun chunk => ?_⟩
  match chunk with
  | [] => decide
  | c :: cs =>
    unfold detect_chunk_type
    split
    · rfl
    · split
      · split
        · rename_i hlen
          simp at hlen
        · split <;> rfl
      · rfl

/-! ## Claim C6 — the table formatter. -/

/-- C6: matrices with fewer than 2 rows (including the empty one) format to
the empty string; a matrix with at least 2 rows formats to the header row,
the `---` separator row with one `---` per header column, and one row per
remaining matrix row; in particular the spec's concrete example. -/
theorem C6_format_table_contract :
    (format_table [] = [] ∧ format_table [[some (str "only-header")]] = []) ∧
    (∀ m : List (List Cell), m.length < 2 → format_table m = []) ∧
    (∀ (header : List Cell) (rest : List (List Cell)), rest ≠ [] →
      format_table (header :: rest) =
        rowMd header ++ sepRowMd header.length ++ (rest.map rowMd).flatten) ∧
    sepRowMd 2 = str "| --- | --- |\n" ∧
    countOcc (str "---") (sepRowMd 2) = 2 ∧
    format_table [[some (str "a"), some (str "b")], [some (str "1"), some (str "2")]] =
      str "| a | b |\n| --- | --- |\n| 1 | 2 |\n" := by
  refine ⟨by decide, fun m hm => ?_, fun header rest hr => ?_, by decide, by decide, by decide⟩
  · unfold format_table
    rw [if_pos hm]
  · have hlen : ¬ (header :: rest).length < 2 := by
      cases rest with
      | nil => exact absurd rfl hr
      | cons b bs => simp
    unfold format_table
    rw [if_neg hlen]

/-- Witness for C6: the hypotheses are discharged on concrete matrices. -/
theorem C6_witness :
    format_table [[some (str "x")]] = [] ∧
    format_table [[some (str "h")], [some (str "v")]] =
      rowMd [some (str "h")] ++ sepRowMd 1 ++ ([[some (str "v")]].map rowMd).flatten :=
  ⟨C6_format_table_contract.2.1 [[some (str "x")]] (by decide),
   C6_format_table_contract.2.2.1 [some (str "h")] [[some (str "v")]] (by decide)⟩

/-! ## Order properties of the export sort. -/

theorem optLT_irrefl (a : Option Int) : ¬ optLT a a := by
  cases a <;> simp [optLT]

theorem optLT_trichotomy (a b : Option Int) : optLT a b ∨ a = b ∨ optLT b a := by
  cases a <;> cases b <;> simp [optLT] <;> omega

theorem optLE_total (a b : Option Int) : optLE a b ∨ optLE b a := by
  cases a <;> cases b <;> simp [optLE, optLT] <;> omega

theorem optLE_trans {a b c : Option Int} (h1 : optLE a b) (h2 : optLE b c) : optLE a c := by
  cases a <;> cases b <;> cases c <;> simp_all [optLE, optLT] <;> omega

theorem optLT_trans {a b c : Option Int} (h1 : optLT a b) (h2 : optLT b c) : optLT a c := by
  cases a <;> cases b <;> cases c <;> simp_all [optLT] <;> omega

theorem keyLE_total (k k' : Option Int × Option Int) : keyLE k k' ∨ keyLE k' k := by
  rcases optLT_trichotomy k.1 k'.1 with h | h | h
  · exact Or.inl (Or.inl h)
  · rcases optLE_total k.2 k'.2 with h2 | h2
    · exact Or.inl (Or.inr ⟨h, h2⟩)
    · exact Or.inr (Or.inr ⟨h.symm, h2⟩)
  · exact Or.inr (Or.inl h)

theorem keyLE_trans {a b c : Option Int × Option Int}
    (h1 : keyLE a b) (h2 : keyLE b c) : keyLE a c := by
  rcases h1 with h1 | ⟨e1, l1⟩
  · rcases h2 with h2 | ⟨e2, l2⟩
    · exact Or.inl (optLT_trans h1 h2)
    · exact Or.inl (e2 ▸ h1)
  · rcases h2 with h2 | ⟨e2, l2⟩
    · exact Or.inl (e1 ▸ h2)
    · exact Or.inr ⟨e1.trans e2, optLE_trans l1 l2⟩

theorem keyLE_ne_lt {k k' : Option Int × Option Int}
    (h : keyLE k k') (hne : k ≠ k') : keyLT k k' := by
  rcases h with h | ⟨h1, h2 | h2⟩
  · exact Or.inl h
  · exact Or.inr ⟨h1, h2⟩
  · exact absurd (Prod.ext h1 h2) hne

instance : IsTotal Row rowLE := ⟨fun a b => keyLE_total (rkey a) (rkey b)⟩

instance : IsTrans Row rowLE := ⟨fun _ _ _ h1 h2 => keyLE_trans h1 h2⟩

/-! ## Claim C10 — null page numbers sort first. -/

/-- C10: whenever `export_all` succeeds, its row ordering puts every
NULL-page record before every non-NULL-page record of the file, and orders
records of equal `page_number` by ascending `chunk_number` (NULL lowest). -/
theorem C10_export_order_nulls_first (f : Str) (db : Db) (md fn : Str)
    (h : export_all_chunks_to_md f db = some (md, fn)) :
    (exportRows f db).Pairwise (fun r s =>
      (s.page_number = none → r.page_number = none) ∧
      (r.page_number = s.page_number → optLE r.chunk_number s.chunk_number)) := by
  have hs : List.Pairwise rowLE (exportRows f db) :=
    List.sorted_insertionSort rowLE (db.filter (fun r => r.file_name = f))
  refine hs.imp ?_
  intro r s hrs
  have hrs' : optLT r.page_number s.page_number ∨
      (r.page_number = s.page_number ∧ optLE r.chunk_number s.chunk_number) := hrs
  rcases hrs' with hlt | ⟨heq, hle⟩
  · refine ⟨fun hnone => ?_, fun hpq => ?_⟩
    · rw [hnone] at hlt
      cases hp : r.page_number <;> rw [hp] at hlt <;> exact absurd hlt (by simp [optLT])
    · rw [hpq] at hlt
      exact absurd hlt (optLT_irrefl _)
  · exact ⟨fun hnone => heq.trans hnone, fun _ => hle⟩

/-- A one-row store used to instantiate C10's hypothesis. -/
def C10db : Db :=
  [{ id := 1, file_name := str "x", page_number := none, chunk_number := some 1,
     content := str "c", chunk_content := str "texto", upload_time := str "d",
     image_description := none, image_data := none },
   { id := 2, file_name := str "x", page_number := some 1, chunk_number := some 1,
     content := str "c2", chunk_content := str "texto", upload_time := str "d",
     image_description := none, image_data := none }]

set_option maxRecDepth 8000 in
/-- Witness for C10 at a concrete store. -/
theorem C10_witness :
    (exportRows (str "x") C10db).Pairwise (fun r s =>
      (s.page_number = none → r.page_number = none) ∧
      (r.page_number = s.page_number → optLE r.chunk_number s.chunk_number)) :=
  C10_export_order_nulls_first (str "x") C10db
    ((export_all_chunks_to_md (str "x") C10db).getD ([], [])).1
    ((export_all_chunks_to_md (str "x") C10db).getD ([], [])).2
    (by decide)

/-! ## Claim C8 — single-chunk export embeds the stored base64 verbatim. -/

/-- C8: for a stored "imagem" row with `image_data = B`, `export_one`
produces Markdown in which the literal `data:image/png;base64,` is
immediately followed by exactly `B` (and the closing parenthesis), whatever
the original image format was. -/
theorem C8_export_one_image_uri (db : Db) (cid : Nat) (r : Row) (B : Str)
    (hfind : db.find? (fun q => q.id = cid) = some r)
    (himg : r.chunk_content = str "imagem")
    (hdata : r.image_data = some B) :
    ∃ fn pre, export_chunk_to_md cid db =
      some (pre ++ str "data:image/png;base64," ++ B ++ str ")", fn) := by
  refine ⟨str "chunk_" ++ natStr cid ++ str "_" ++ r.file_name ++ str ".md",
    str "# " ++ r.file_name ++ str "\n\n"
      ++ str "**ID:** " ++ natStr r.id ++ str "\n"
      ++ str "**Página:** " ++ optIntStr r.page_number ++ str "\n"
      ++ str "**Chunk:** " ++ optIntStr r.chunk_number ++ str "\n"
      ++ str "**Tipo:** " ++ r.chunk_content ++ str "\n"
      ++ str "**Data de upload:** " ++ r.upload_time ++ str "\n\n"
      ++ str "## Descrição da Imagem\n" ++ optStrStr r.image_description ++ str "\n\n"
      ++ str "![Imagem](", ?_⟩
  have hb : buildChunkMd r =
      (str "# " ++ r.file_name ++ str "\n\n"
        ++ str "**ID:** " ++ natStr r.id ++ str "\n"
        ++ str "**Página:** " ++ optIntStr r.page_number ++ str "\n"
        ++ str "**Chunk:** " ++ optIntStr r.chunk_number ++ str "\n"
        ++ str "**Tipo:** " ++ r.chunk_content ++ str "\n"
        ++ str "**Data de upload:** " ++ r.upload_time ++ str "\n\n"
        ++ str "## Descrição da Imagem\n" ++ optStrStr r.image_description ++ str "\n\n"
        ++ str "![Imagem](")
      ++ str "data:image/png;base64," ++ B ++ str ")" := by
    unfold buildChunkMd
    rw [if_pos himg, hdata]
    have hsplit : str "![Imagem](data:image/png;base64," =
        str "![Imagem](" ++ str "data:image/png;base64," := by decide
    simp [optStrStr, hsplit, List.append_assoc]
  unfold export_chunk_to_md
  rw [hfind]
  show some (buildChunkMd r, str "chunk_" ++ natStr cid ++ str "_" ++ r.file_name ++ str ".md") = _
  rw [hb]

/-- A concrete "imagem" row for the C8 witness. -/
def C8row : Row :=
  { id := 1, file_name := str "img.png", page_number := some 1,
    chunk_number := some 1, content := str "meta", chunk_content := str "imagem",
    upload_time := str "01/01/2024", image_description := some (str "uma imagem"),
    image_data := some (str "QUJD") }

/-- Witness for C8 on a one-row store. -/
theorem C8_witness :
    ∃ fn pre, export_chunk_to_md 1 [C8row] =
      some (pre ++ str "data:image/png;base64," ++ str "QUJD" ++ str ")", fn) :=
  C8_export_one_image_uri [C8row] 1 C8row (str "QUJD") (by decide) (by decide) (by decide)

/-! ## Claim C9 — keyword search. -/

theorem tails_any_isEmpty (t : Str) : t.tails.any (fun s => s.isEmpty) = true := by
  induction t with
  | nil => decide
  | cons c cs ih => simp [List.tails, ih]

/-- For a wildcard-free pattern followed by `%`, `LIKE` matching is exactly
case-insensitive prefix matching. -/
theorem sqlLikeMatch_lit_percent (kw : Str) (hk : ∀ c ∈ kw, c ≠ '%' ∧ c ≠ '_') :
    ∀ t : Str, sqlLikeMatch (kw ++ [ '%' ]) t =
      (kw.map asciiLower).isPrefixOf (t.map asciiLower) := by
  induction kw with
  | nil =>
    intro t
    simpa [sqlLikeMatch] using tails_any_isEmpty t
  | cons k ks ih =>
    intro t
    have hk1 : k ≠ '%' := (hk k (by simp)).1
    have hk2 : k ≠ '_' := (hk k (by simp)).2
    cases t with
    | nil => simp [sqlLikeMatch, hk1, hk2, List.isPrefixOf]
    | cons c ts =>
      have ih' := ih (fun x hx => hk x (List.mem_cons_of_mem _ hx)) ts
      by_cases hc : asciiLower k = asciiLower c
      · simp [sqlLikeMatch, hk1, hk2, hc, List.isPrefixOf, ih']
      · simp [sqlLikeMatch, hk1, hk2, hc, List.isPrefixOf]

/-- `LIKE '%kw%'` for a wildcard-free keyword is case-insensitive substring
containment. -/
theorem sqlLikeMatch_percent_wrap (kw : Str) (hk : ∀ c ∈ kw, c ≠ '%' ∧ c ≠ '_')
    (s : Str) : sqlLikeMatch (str "%" ++ kw ++ str "%") s = containsCI kw s := by
  have hcons : str "%" ++ kw ++ str "%" = '%' :: (kw ++ [ '%' ]) := by
    simp [str]
  rw [hcons]
  show (if '%' = '%' then s.tails.any (fun t => sqlLikeMatch (kw ++ [ '%' ]) t)
    else _) = containsCI kw s
  rw [if_pos rfl]
  simp only [sqlLikeMatch_lit_percent kw hk]
  simp [containsCI, listContains, List.map_tails, List.any_map, Function.comp_def]

/-- C9 (amended): `search_chunks` returns the first `limit` rows whose
`chunk_content` tag matches the keyword — for a wildcard-free keyword,
exactly case-insensitive substring containment on the tag, so the content
body has no influence; at most `limit` rows are returned, and every returned
row's tag contains the keyword.  (The truncation to `limit` is what the
original claim's "exactly the records" overlooks.) -/
theorem C9_search_amended (keyword : Str) (limit : Nat) (db : Db)
    (hk : ∀ c ∈ keyword, c ≠ '%' ∧ c ≠ '_') :
    search_chunks keyword limit db =
      (db.filter (fun r => containsCI keyword r.chunk_content)).take limit ∧
    (search_chunks keyword limit db).length ≤ limit ∧
    ∀ r ∈ search_chunks keyword limit db, containsCI keyword r.chunk_content := by
  have hfilter : db.filter
      (fun r => sqlLikeMatch (str "%" ++ keyword ++ str "%") r.chunk_content) =
      db.filter (fun r => containsCI keyword r.chunk_content) :=
    List.filter_congr (fun r _ => by rw [sqlLikeMatch_percent_wrap keyword hk])
  refine ⟨by rw [search_chunks, hfilter], List.length_take_le _ _, fun r hr => ?_⟩
  have hmem : r ∈ db.filter
      (fun q => sqlLikeMatch (str "%" ++ keyword ++ str "%") q.chunk_content) :=
    List.mem_of_mem_take hr
  have := List.of_mem_filter hmem
  rwa [sqlLikeMatch_percent_wrap keyword hk] at this

/-- Two rows whose tags both match the searched keyword. -/
def C9rowA : Row :=
  { id := 1, file_name := str "f", page_number := some 1, chunk_number := some 1,
    content := str "alpha", chunk_content := str "texto",
    upload_time := str "d", image_description := none, image_data := none }

/-- Second matching row, left out by the `LIMIT`. -/
def C9rowB : Row :=
  { id := 2, file_name := str "f", page_number := some 1, chunk_number := some 2,
    content := str "beta", chunk_content := str "texto",
    upload_time := str "d", image_description := none, image_data := none }

/-- Counterexample to C9 as stated: with two rows whose tag contains the
keyword and `limit = 1`, the search does **not** return all matching records
— `C9rowB` matches yet is missing from the result. -/
theorem C9_counterexample :
    containsCI (str "texto") C9rowB.chunk_content = true ∧
    C9rowB ∉ search_chunks (str "texto") 1 [C9rowA, C9rowB] := by decide

/-- Witness for C9 at a concrete keyword, limit and store. -/
theorem C9_witness :
    search_chunks (str "texto") 1 [C9rowA, C9rowB] =
      (([C9rowA, C9rowB] : Db).filter
        (fun r => containsCI (str "texto") r.chunk_content)).take 1 ∧
    (search_chunks (str "texto") 1 [C9rowA, C9rowB]).length ≤ 1 ∧
    ∀ r ∈ search_chunks (str "texto") 1 [C9rowA, C9rowB],
      containsCI (str "texto") r.chunk_content :=
  C9_search_amended (str "texto") 1 [C9rowA, C9rowB] (by decide)

/-! ## Claim C1 — full-document export: heading, ordering, round-trip. -/

/-- The spec's round-trip store: six "a.pdf" chunks with keys
(1,1)...(2,3) and pairwise distinct contents. -/
def C1db : Db :=
  [{ id := 1, file_name := str "a.pdf", page_number := some 1, chunk_number := some 1,
     content := str "AAAA", chunk_content := str "texto", upload_time := str "01/01/2024",
     image_description := none, image_data := none },
   { id := 2, file_name := str "a.pdf", page_number := some 1, chunk_number := some 2,
     content := str "BBBB", chunk_content := str "texto", upload_time := str "01/01/2024",
     image_description := none, image_data := none },
   { id := 3, file_name := str "a.pdf", page_number := some 1, chunk_number := some 3,
     content := str "CCCC", chunk_content := str "texto", upload_time := str "01/01/2024",
     image_description := none, image_data := none },
   { id := 4, file_name := str "a.pdf", page_number := some 2, chunk_number := some 1,
     content := str "DDDD", chunk_content := str "texto", upload_time := str "01/01/2024",
     image_description := none, image_data := none },
   { id := 5, file_name := str "a.pdf", page_number := some 2, chunk_number := some 2,
     content := str "EEEE", chunk_content := str "texto", upload_time := str "01/01/2024",
     image_description := none, image_data := none },
   { id := 6, file_name := str "a.pdf", page_number := some 2, chunk_number := some 3,
     content := str "FFFF", chunk_content := str "texto", upload_time := str "01/01/2024",
     image_description := none, image_data := none }]

/-- The Markdown produced by `export_all` on the round-trip store. -/
def C1md : Str := ((export_all_chunks_to_md (str "a.pdf") C1db).getD ([], [])).1

set_option maxRecDepth 100000 in
/-- C1: for any store and file with at least one matching row and pairwise
distinct (page_number, chunk_number) keys, `export_all` yields the Markdown
prefixed by the single top-level heading `# <file>` followed by the
per-chunk sections in strictly increasing key order; on the spec's concrete
round-trip store, every chunk's content occurs exactly once in the output,
which starts with the heading and contains no other top-level heading. -/
theorem C1_export_all_roundtrip (f : Str) (db : Db)
    (hne : db.filter (fun r => r.file_name = f) ≠ [])
    (hdist : (db.filter (fun r => r.file_name = f)).Pairwise
      (fun r s => rkey r ≠ rkey s)) :
    (export_all_chunks_to_md f db =
        some (str "# " ++ f ++ str "\n\n" ++ ((exportRows f db).map sectionOf).flatten,
              str "documento_completo_" ++ f ++ str ".md") ∧
      (exportRows f db).Pairwise (fun r s => keyLT (rkey r) (rkey s))) ∧
    ((∀ r ∈ C1db, countOcc r.content C1md = 1) ∧
      C1md.take 2 = str "# " ∧ countOcc (str "\n# ") C1md = 0) := by
  have hperm := List.perm_insertionSort rowLE (db.filter (fun r => r.file_name = f))
  have hrows : exportRows f db ≠ [] := by
    intro h0
    have h2 := hperm
    rw [show exportRows f db =
      List.insertionSort rowLE (db.filter (fun r => r.file_name = f)) from rfl] at h0
    rw [h0] at h2
    exact hne h2.symm.eq_nil
  refine ⟨⟨?_, ?_⟩, ?_, by decide, by decide⟩
  · simp only [export_all_chunks_to_md]
    rw [if_neg hrows]
  · have hs : List.Pairwise rowLE (exportRows f db) :=
      List.sorted_insertionSort rowLE (db.filter (fun r => r.file_name = f))
    have hne' : List.Pairwise (fun r s => rkey r ≠ rkey s) (exportRows f db) :=
      (List.Perm.pairwise_iff (fun hxy heq => hxy heq.symm) hperm.symm).mp hdist
    exact (hs.and hne').imp (fun h => keyLE_ne_lt h.1 h.2)
  · decide

set_option maxRecDepth 100000 in
/-- Witness for C1 at the round-trip store. -/
theorem C1_witness :
    (C1db.filter (fun r => r.file_name = str "a.pdf") ≠ [] ∧
     (C1db.filter (fun r => r.file_name = str "a.pdf")).Pairwise
       (fun r s => rkey r ≠ rkey s)) ∧
    ((export_all_chunks_to_md (str "a.pdf") C1db =
        some (str "# " ++ str "a.pdf" ++ str "\n\n"
            ++ ((exportRows (str "a.pdf") C1db).map sectionOf).flatten,
          str "documento_completo_" ++ str "a.pdf" ++ str ".md") ∧
      (exportRows (str "a.pdf") C1db).Pairwise (fun r s => keyLT (rkey r) (rkey s))) ∧
    ((∀ r ∈ C1db, countOcc r.content C1md = 1) ∧
      C1md.take 2 = str "# " ∧ countOcc (str "\n# ") C1md = 0)) :=
  ⟨⟨by decide, by decide⟩,
   C1_export_all_roundtrip (str "a.pdf") C1db (by decide) (by decide)⟩

/-! ## Claim C5 — captioning failures. -/

/-- C5 (amended): in the PDF pipeline an image chunk is always produced:
its tag is "imagem" and its description degrades to the fixed placeholder
whenever no client is configured or the captioning call fails or returns an
empty response.  The standalone image extractor behaves differently: with no
client configured it aborts (`False`) and inserts nothing; with a client it
inserts the record, degrading a failed caption to the placeholder. -/
theorem C5_captioning_amended (hasClient : Bool) (caption : Option Str)
    (file_name b64 upload_time : Str) (page_index chunk_counter : Nat) :
    ((pdf_image_record hasClient caption file_name page_index chunk_counter
        upload_time b64).chunk_content = str "imagem" ∧
     (pdf_image_record hasClient caption file_name page_index chunk_counter
        upload_time b64).image_data = some b64) ∧
    (hasClient = false →
      (pdf_image_record hasClient caption file_name page_index chunk_counter
        upload_time b64).image_description = some placeholderDesc) ∧
    (caption = none ∨ caption = some [] →
      (pdf_image_record hasClient caption file_name page_index chunk_counter
        upload_time b64).image_description = some placeholderDesc) ∧
    (∀ c : Option Str,
      process_image_to_chunks false c file_name b64 upload_time = (false, [])) ∧
    ((process_image_to_chunks true none file_name b64 upload_time).1 = true ∧
      (process_image_to_chunks true none file_name b64 upload_time).2 ≠ [] ∧
      ∀ r ∈ (process_image_to_chunks true none file_name b64 upload_time).2,
        r.chunk_content = str "imagem" ∧ r.image_description = some placeholderDesc ∧
          r.image_data = some b64) := by
  refine ⟨⟨rfl, rfl⟩, fun h => ?_, fun h => ?_, fun c => rfl, rfl, ?_, ?_⟩
  · subst h
    rfl
  · cases hcl : hasClient
    · rfl
    · rcases h with h | h <;> subst h <;> rfl
  · simp [process_image_to_chunks]
  · intro r hr
    simp [process_image_to_chunks] at hr
    subst hr
    exact ⟨rfl, rfl, rfl⟩

/-- Witness for C5 at concrete inputs. -/
theorem C5_witness :
    (pdf_image_record false none (str "img.png") 0 1 (str "01/01/2024")
      (str "QUJD")).chunk_content = str "imagem" ∧
    (pdf_image_record false none (str "img.png") 0 1 (str "01/01/2024")
      (str "QUJD")).image_description = some placeholderDesc :=
  ⟨(C5_captioning_amended false none (str "img.png") (str "QUJD")
      (str "01/01/2024") 0 1).1.1,
   (C5_captioning_amended false none (str "img.png") (str "QUJD")
      (str "01/01/2024") 0 1).2.1 rfl⟩

/-- Counterexample to C5 as stated: with no captioning credential configured
the standalone image extractor does **not** produce a placeholder "imagem"
record — it returns `False` and inserts nothing. -/
theorem C5_counterexample :
    (process_image_to_chunks false none (str "img.png") (str "QUJD")
      (str "01/01/2024")).1 = false ∧
    ¬ ∃ r ∈ (process_image_to_chunks false none (str "img.png") (str "QUJD")
      (str "01/01/2024")).2, r.chunk_content = str "imagem" := by decide

/-! ## Claim C7 — DOCX page numbers. -/

theorem docxSyncRecs_page (fn up : Str) :
    ∀ (i : Nat) (chunks : List Str) (recs : List InsRow),
      docxSyncRecs fn up i chunks = some recs →
      ∀ r ∈ recs, r.page_number = some 1 := by
  intro i chunks
  induction chunks generalizing i with
  | nil =>
    intro recs h r hr
    simp [docxSyncRecs] at h
    subst h
    simp at hr
  | cons c cs ih =>
    intro recs h r hr
    simp only [docxSyncRecs] at h
    cases hd : detect_chunk_type c with
    | none => rw [hd] at h; simp at h
    | some ty =>
      rw [hd] at h
      cases hrest : docxSyncRecs fn up (i + 1) cs with
      | none => rw [hrest] at h; simp at h
      | some recs' =>
        rw [hrest] at h
        simp only [Option.map_some', Option.some.injEq] at h
        rw [← h] at hr
        rcases List.mem_cons.mp hr with hr | hr
        · subst hr; rfl
        · exact ih (i + 1) recs' hrest r hr

theorem docxAsyncChunkRecs_page (fn up : Str) :
    ∀ (i : Nat) (chunks : List Str) (recs : List InsRow),
      docxAsyncChunkRecs fn up i chunks = some recs →
      ∀ r ∈ recs, r.page_number = none := by
  intro i chunks
  induction chunks generalizing i with
  | nil =>
    intro recs h r hr
    simp [docxAsyncChunkRecs] at h
    subst h
    simp at hr
  | cons c cs ih =>
    intro recs h r hr
    simp only [docxAsyncChunkRecs] at h
    cases hd : detect_chunk_type c with
    | none => rw [hd] at h; simp at h
    | some ty =>
      rw [hd] at h
      cases hrest : docxAsyncChunkRecs fn up (i + 1) cs with
      | none => rw [hrest] at h; simp at h
      | some recs' =>
        rw [hrest] at h
        simp only [Option.map_some', Option.some.injEq] at h
        rw [← h] at hr
        rcases List.mem_cons.mp hr with hr | hr
        · subst hr; rfl
        · exact ih (i + 1) recs' hrest r hr

theorem docxAsyncTables_page (fn up : Str) :
    ∀ (i : Nat) (ts : List (List (List Cell))) (r : InsRow),
      r ∈ docxAsyncTables fn up i ts → r.page_number = none := by
  intro i ts
  induction ts generalizing i with
  | nil => intro r hr; simp [docxAsyncTables] at hr
  | cons m ms ih =>
    intro r hr
    simp only [docxAsyncTables] at hr
    by_cases hmd : format_table m = []
    · rw [if_pos hmd] at hr
      exact ih i r hr
    · rw [if_neg hmd] at hr
      rcases List.mem_cons.mp hr with hr | hr
      · subst hr; rfl
      · exact ih (i + 1) r hr

theorem docxAsyncParas_page (fn up : Str) (width : Nat) :
    ∀ (i : Nat) (paras : List Str) (c' : Nat) (recs : List InsRow),
      docxAsyncParas fn up width i paras = some (c', recs) →
      ∀ r ∈ recs, r.page_number = none := by
  intro i paras
  induction paras generalizing i with
  | nil =>
    intro c' recs h r hr
    simp only [docxAsyncParas, Option.some.injEq, Prod.mk.injEq] at h
    rw [← h.2] at hr
    simp at hr
  | cons p ps ih =>
    intro c' recs h r hr
    simp only [docxAsyncParas] at h
    by_cases hp : pyStrip p = []
    · rw [if_pos hp] at h
      exact ih i c' recs h r hr
    · rw [if_neg hp] at h
      split at h
      · exact absurd h (by simp)
      · rename_i chunks hw
        split at h
        · exact absurd h (by simp)
        · rename_i recs1 hc
          split at h
          · exact absurd h (by simp)
          · rename_i c2 recs2 hrest
            simp only [Option.some.injEq, Prod.mk.injEq] at h
            rw [← h.2] at hr
            rcases List.mem_append.mp hr with hr | hr
            · exact docxAsyncChunkRecs_page fn up i chunks recs1 hc r hr
            · exact ih (i + chunks.length) c2 recs2 hrest r hr

/-- C7 (amended): every record inserted by the asynchronous DOCX extractor
(utils.py) carries a NULL `page_number`; the synchronous DOCX extractor
(process_docx.py) instead inserts `page_number = 1` on every record. -/
theorem C7_docx_page_number_amended (fn : Str) (paras : List Str)
    (tables : List (List (List Cell))) (width : Nat) (up : Str) :
    (∀ recs, process_docx_to_chunks_async fn paras tables width up = some recs →
      ∀ r ∈ recs, r.page_number = none) ∧
    (∀ r ∈ (process_docx_to_chunks fn paras width up).2, r.page_number = some 1) := by
  constructor
  · intro recs h r hr
    unfold process_docx_to_chunks_async at h
    split at h
    · exact absurd h (by simp)
    · rename_i counter recs1 hp
      simp only [Option.some.injEq] at h
      rw [← h] at hr
      rcases List.mem_append.mp hr with hr | hr
      · exact docxAsyncParas_page fn up width 1 paras counter recs1 hp r hr
      · exact docxAsyncTables_page fn up counter tables r hr
  · intro r hr
    simp only [process_docx_to_chunks] at hr
    by_cases ht : pyStrip (List.intercalate ['\n'] paras) = []
    · rw [if_pos ht] at hr
      simp at hr
    · rw [if_neg ht] at hr
      split at hr
      · simp at hr
      · rename_i chunks hw
        split at hr
        · simp at hr
        · rename_i recs hrecs
          exact docxSyncRecs_page fn up 1 chunks recs hrecs r hr

set_option maxRecDepth 40000 in
/-- Counterexample to C7 as stated: the DOCX extractor of process_docx.py
inserts a record with a non-NULL `page_number` (namely 1). -/
theorem C7_counterexample :
    ∃ r ∈ (process_docx_to_chunks (str "a.docx") [str "hi"] 800
      (str "01/01/2024")).2, r.page_number ≠ none := by decide

/-- Witness for C7 at concrete inputs: both extractors evaluated on a
one-paragraph document. -/
theorem C7_witness :
    ((process_docx_to_chunks_async (str "a.docx") [str "hi"] [] 800
        (str "01/01/2024")).getD []).all (fun r => r.page_number = none) = true ∧
    (process_docx_to_chunks (str "a.docx") [str "hi"] 800
        (str "01/01/2024")).2.all (fun r => decide (r.page_number = some 1)) = true := by
  constructor
  · have h := (C7_docx_page_number_amended (str "a.docx") [str "hi"] [] 800
      (str "01/01/2024")).1
    cases hx : process_docx_to_chunks_async (str "a.docx") [str "hi"] [] 800
      (str "01/01/2024") with
    | none => simp [hx]
    | some recs =>
      simp only [hx, Option.getD_some]
      exact List.all_eq_true.mpr fun r hr => by simpa using h recs hx r hr
  · have h := (C7_docx_page_number_amended (str "a.docx") [str "hi"] [] 800
      (str "01/01/2024")).2
    exact List.all_eq_true.mpr fun r hr => by simpa using h r hr

/-! ## Claim C2 — word-wrap.  The whitespace-delimited words of a text are
modelled by `wordsOf`; the development shows that `textwrap_wrap` keeps every
piece within the width, and preserves the word sequence whenever no word
exceeds the width and the text has no hyphens (the two situations the
counterexample and the hyphen-splitting regex make unavoidable). -/

/-- Accumulator word splitter: `acc` is the reversed current word. -/
def wordsAux (acc : Str) : Str → List Str
  | [] => if acc = [] then [] else [acc.reverse]
  | c :: cs =>
    if isPyWs c then
      if acc = [] then wordsAux [] cs else acc.reverse :: wordsAux [] cs
    else wordsAux (c :: acc) cs

/-- The whitespace-delimited words of a text, in order. -/
def wordsOf (t : Str) : List Str := wordsAux [] t

/-- The single-space rejoin of the claim: `" ".join(pieces)`. -/
def joinSp (ps : List Str) : Str := List.intercalate [' '] ps

/-- All words of all pieces, in order. -/
def wflat (L : List Str) : List Str := (L.map wordsOf).flatten

/-- Total length of a chunk list. -/
def sumLen (L : List Str) : Nat := (L.map List.length).sum

theorem wordsAux_ws_cons {c : Char} (h : isPyWs c = true) (acc : Str) (cs : Str) :
    wordsAux acc (c :: cs) =
      (if acc = [] then [] else [acc.reverse]) ++ wordsAux [] cs := by
  by_cases ha : acc = [] <;> simp [wordsAux, h, ha]

theorem wordsAux_nonws_cons {c : Char} (h : isPyWs c = false) (acc : Str) (cs : Str) :
    wordsAux acc (c :: cs) = wordsAux (c :: acc) cs := by
  simp [wordsAux, h]

theorem wordsAux_split {y : Char} (hy : isPyWs y = true) :
    ∀ (x : Str) (acc z : Str),
      wordsAux acc (x ++ y :: z) = wordsAux acc x ++ wordsAux [] z := by
  intro x
  induction x with
  | nil =>
    intro acc z
    rw [List.nil_append, wordsAux_ws_cons hy]
    by_cases ha : acc = [] <;> simp [wordsAux, ha]
  | cons c x' ih =>
    intro acc z
    by_cases hc : isPyWs c = true
    · rw [List.cons_append, wordsAux_ws_cons hc, wordsAux_ws_cons hc, ih]
      simp [List.append_assoc]
    · rw [List.cons_append, wordsAux_nonws_cons (by simpa using hc),
          wordsAux_nonws_cons (by simpa using hc), ih]

theorem wordsOf_joinSp (ps : List Str) : wordsOf (joinSp ps) = wflat ps := by
  induction ps with
  | nil => rfl
  | cons p ps ih =>
    cases ps with
    | nil => simp [joinSp, wflat, wordsOf, List.intercalate]
    | cons q ps' =>
      have hj : joinSp (p :: q :: ps') = p ++ ' ' :: joinSp (q :: ps') := by
        simp [joinSp, List.intercalate, List.intersperse]
      rw [wordsOf, hj, wordsAux_split (by decide) p]
      rw [show wordsAux [] p = wordsOf p from rfl,
          show wordsAux [] (joinSp (q :: ps')) = wordsOf (joinSp (q :: ps')) from rfl, ih]
      simp [wflat]

theorem wordsAux_ws_append :
    ∀ (a : Str), a.all isPyWs = true → a ≠ [] →
    ∀ acc r, wordsAux acc (a ++ r) =
      (if acc = [] then [] else [acc.reverse]) ++ wordsAux [] r := by
  intro a
  induction a with
  | nil => intro _ hne; exact absurd rfl hne
  | cons c a' ih =>
    intro h _ acc r
    simp only [List.all_cons, Bool.and_eq_true] at h
    rw [List.cons_append, wordsAux_ws_cons h.1]
    cases ha' : a' with
    | nil => simp
    | cons d a'' =>
      rw [← ha', ih h.2 (by rw [ha']; simp)]
      simp

theorem wordsOf_ws_append {a : Str} (h : a.all isPyWs = true) (r : Str) :
    wordsOf (a ++ r) = wordsOf r := by
  cases a with
  | nil => rfl
  | cons c a' =>
    rw [wordsOf, wordsAux_ws_append _ h (by simp)]
    simp [wordsOf]

theorem wordsOf_all_ws {a : Str} (h : a.all isPyWs = true) : wordsOf a = [] := by
  have := wordsOf_ws_append h []
  rwa [List.append_nil] at this

theorem wordsAux_word_prefix :
    ∀ (w : Str), w.all (fun c => !isPyWs c) = true →
    ∀ acc r, wordsAux acc (w ++ r) = wordsAux (w.reverse ++ acc) r := by
  intro w
  induction w with
  | nil => intro _ acc r; simp
  | cons c w' ih =>
    intro h acc r
    simp only [List.all_cons, Bool.and_eq_true] at h
    rw [List.cons_append, wordsAux_nonws_cons (by simpa using h.1), ih h.2]
    simp [List.append_assoc]

theorem wordsOf_word_append {w r : Str} (hw : w.all (fun c => !isPyWs c) = true)
    (hne : w ≠ []) (hr : r = [] ∨ ∃ c r', r = c :: r' ∧ isPyWs c = true) :
    wordsOf (w ++ r) = w :: wordsOf r := by
  rw [wordsOf, wordsAux_word_prefix w hw, List.append_nil]
  rcases hr with hr | ⟨c, r', hr, hc⟩
  · subst hr
    simp [wordsAux, wordsOf, hne]
  · subst hr
    rw [wordsAux_ws_cons hc]
    have hws : wordsOf (c :: r') = wordsAux [] r' := by
      rw [wordsOf, wordsAux_ws_cons hc]
      simp
    rw [hws]
    simp [hne]

theorem wordsOf_all_nonws {w : Str} (hw : w.all (fun c => !isPyWs c) = true)
    (hne : w ≠ []) : wordsOf w = [w] := by
  have := wordsOf_word_append hw hne (Or.inl rfl)
  rwa [List.append_nil] at this

/-! ### Maximal whitespace / non-whitespace runs. -/

/-- The maximal homogeneous (whitespace / non-whitespace) runs of a text:
this is what the word-separation scanner degenerates to on hyphen-free
input. -/
def rawRuns : Str → List Str
  | [] => []
  | c :: cs =>
    if h : isPyWs c then
      (c :: cs).takeWhile isPyWs :: rawRuns ((c :: cs).dropWhile isPyWs)
    else
      (c :: cs).takeWhile (fun x => !isPyWs x) ::
        rawRuns ((c :: cs).dropWhile (fun x => !isPyWs x))
termination_by t => t.length
decreasing_by
  · simp only [List.dropWhile_cons, h, if_true]
    exact Nat.lt_succ_of_le ((List.dropWhile_sublist _).length_le)
  · simp only [List.dropWhile_cons]
    rw [if_pos (by simp [h])]
    exact Nat.lt_succ_of_le ((List.dropWhile_sublist _).length_le)

theorem rawRuns_cons_ws {c : Char} (cs : Str) (hc : isPyWs c = true) :
    rawRuns (c :: cs) =
      (c :: cs).takeWhile isPyWs :: rawRuns ((c :: cs).dropWhile isPyWs) := by
  conv_lhs => rw [rawRuns]
  rw [dif_pos hc]

theorem rawRuns_cons_nonws {c : Char} (cs : Str) (hc : isPyWs c = false) :
    rawRuns (c :: cs) =
      (c :: cs).takeWhile (fun x => !isPyWs x) ::
        rawRuns ((c :: cs).dropWhile (fun x => !isPyWs x)) := by
  conv_lhs => rw [rawRuns]
  rw [dif_neg (by simp [hc])]

theorem dropWhile_head_false (p : Char → Bool) :
    ∀ l : Str, l.dropWhile p = [] ∨
      ∃ c r', l.dropWhile p = c :: r' ∧ p c = false := by
  intro l
  induction l with
  | nil => exact Or.inl rfl
  | cons c cs ih =>
    rw [List.dropWhile_cons]
    by_cases hp : p c = true
    · rw [if_pos hp]
      exact ih
    · rw [if_neg hp]
      exact Or.inr ⟨c, cs, rfl, by simpa using hp⟩

/-- The bundle of `rawRuns` facts used downstream: runs are nonempty and
homogeneous, whitespace runs alternate with word runs, the concatenation of
their word lists is the word list of the text, and every word run is a word
of the text. -/
theorem rawRuns_bundle :
    ∀ (n : Nat) (t : Str), t.length ≤ n →
      (∀ x ∈ rawRuns t,
        x ≠ [] ∧ (x.all isPyWs = true ∨ x.all (fun c => !isPyWs c) = true)) ∧
      (rawRuns t).Chain' (fun a b => a.all isPyWs = true ∨ b.all isPyWs = true) ∧
      wflat (rawRuns t) = wordsOf t ∧
      (∀ x ∈ rawRuns t, x.all (fun c => !isPyWs c) = true → x ∈ wordsOf t) := by
  intro n
  induction n with
  | zero =>
    intro t ht
    have h0 : t = [] := List.length_eq_zero.mp (Nat.le_zero.mp ht)
    subst h0
    refine ⟨?_, ?_, ?_, ?_⟩ <;> simp [rawRuns, wflat, wordsOf, wordsAux]
  | succ n ih =>
    intro t ht
    cases t with
    | nil => refine ⟨?_, ?_, ?_, ?_⟩ <;> simp [rawRuns, wflat, wordsOf, wordsAux]
    | cons c cs =>
      by_cases hc : isPyWs c = true
      · -- leading whitespace run
        have hrr := rawRuns_cons_ws cs hc
        have hw_all : ((c :: cs).takeWhile isPyWs).all isPyWs = true :=
          List.all_takeWhile
        have hw_ne : (c :: cs).takeWhile isPyWs ≠ [] := by
          simp [List.takeWhile_cons, hc]
        have hdrop : (c :: cs).dropWhile isPyWs = cs.dropWhile isPyWs := by
          rw [List.dropWhile_cons, if_pos hc]
        have hlen : ((c :: cs).dropWhile isPyWs).length ≤ n := by
          rw [hdrop]
          exact le_trans ((List.dropWhile_sublist _).length_le) (by simpa using ht)
        obtain ⟨ihmem, ihchain, ihwf, ihword⟩ := ih _ hlen
        have hsplitT : (c :: cs).takeWhile isPyWs ++ (c :: cs).dropWhile isPyWs
            = c :: cs := List.takeWhile_append_dropWhile isPyWs (c :: cs)
        have hwordsT : wordsOf (c :: cs) = wordsOf ((c :: cs).dropWhile isPyWs) := by
          conv_lhs => rw [← hsplitT]
          exact wordsOf_ws_append hw_all _
        refine ⟨?_, ?_, ?_, ?_⟩
        · intro x hx
          rw [hrr] at hx
          rcases List.mem_cons.mp hx with hx | hx
          · subst hx; exact ⟨hw_ne, Or.inl hw_all⟩
          · exact ihmem x hx
        · rw [hrr]
          exact List.chain'_cons'.mpr ⟨fun y _ => Or.inl hw_all, ihchain⟩
        · rw [hrr]
          show wordsOf _ ++ wflat _ = _
          rw [wordsOf_all_ws hw_all, ihwf, hwordsT]
          rfl
        · intro x hx hword
          rw [hrr] at hx
          rcases List.mem_cons.mp hx with hx | hx
          · subst hx
            cases hx2 : (c :: cs).takeWhile isPyWs with
            | nil => exact absurd hx2 hw_ne
            | cons d ds =>
              rw [hx2] at hw_all hword
              simp at hw_all hword
              rw [hw_all.1] at hword
              simp at hword
          · rw [hwordsT]
            exact ihword x hx hword
      · -- leading word run
        have hc' : isPyWs c = false := by simpa using hc
        have hrr := rawRuns_cons_nonws cs hc'
        have hw_all : ((c :: cs).takeWhile (fun x => !isPyWs x)).all
            (fun x => !isPyWs x) = true := List.all_takeWhile
        have hw_ne : (c :: cs).takeWhile (fun x => !isPyWs x) ≠ [] := by
          simp [List.takeWhile_cons, hc']
        have hdrop : (c :: cs).dropWhile (fun x => !isPyWs x)
            = cs.dropWhile (fun x => !isPyWs x) := by
          rw [List.dropWhile_cons, if_pos (by simp [hc'])]
        have hlen : ((c :: cs).dropWhile (fun x => !isPyWs x)).length ≤ n := by
          rw [hdrop]
          exact le_trans ((List.dropWhile_sublist _).length_le) (by simpa using ht)
        obtain ⟨ihmem, ihchain, ihwf, ihword⟩ := ih _ hlen
        have hsplitT : (c :: cs).takeWhile (fun x => !isPyWs x)
            ++ (c :: cs).dropWhile (fun x => !isPyWs x) = c :: cs :=
          List.takeWhile_append_dropWhile _ (c :: cs)
        have hrest : (c :: cs).dropWhile (fun x => !isPyWs x) = [] ∨
            ∃ d r', (c :: cs).dropWhile (fun x => !isPyWs x) = d :: r' ∧
              isPyWs d = true := by
          rcases dropWhile_head_false (fun x => !isPyWs x) (c :: cs) with h | ⟨d, r', hd, hp⟩
          · exact Or.inl h
          · exact Or.inr ⟨d, r', hd, by simpa using hp⟩
        have hwordsT : wordsOf (c :: cs) =
            (c :: cs).takeWhile (fun x => !isPyWs x) ::
              wordsOf ((c :: cs).dropWhile (fun x => !isPyWs x)) := by
          conv_lhs => rw [← hsplitT]
          exact wordsOf_word_append hw_all hw_ne hrest
        refine ⟨?_, ?_, ?_, ?_⟩
        · intro x hx
          rw [hrr] at hx
          rcases List.mem_cons.mp hx with hx | hx
          · subst hx; exact ⟨hw_ne, Or.inr hw_all⟩
          · exact ihmem x hx
        · rw [hrr]
          refine List.chain'_cons'.mpr ⟨?_, ihchain⟩
          intro y hy
          rcases hrest with h0 | ⟨d, r', hd, hdws⟩
          · rw [h0] at hy
            simp [rawRuns] at hy
          · rw [hd, rawRuns_cons_ws r' hdws] at hy
            simp only [List.head?_cons, Option.mem_def, Option.some.injEq] at hy
            exact Or.inr (hy ▸ List.all_takeWhile)
        · rw [hrr]
          show wordsOf _ ++ wflat _ = _
          rw [ihwf, hwordsT,
              wordsOf_all_nonws hw_all hw_ne]
          rfl
        · intro x hx hword
          rw [hrr] at hx
          rcases List.mem_cons.mp hx with hx | hx
          · subst hx
            rw [hwordsT]
            exact List.mem_cons_self _ _
          · rw [hwordsT]
            exact List.mem_cons_of_mem _ (ihword x hx hword)

/-! ### On hyphen-free text the word-separation scanner yields the runs. -/

theorem wordScanGo_nodash :
    ∀ (cs : Str), (∀ c ∈ cs, c ≠ '-') →
    ∀ pre acc, wordScanGo pre acc cs =
      (acc.reverse ++ cs.takeWhile (fun c => !isPyWs c),
       cs.dropWhile (fun c => !isPyWs c)) := by
  intro cs
  induction cs with
  | nil =>
    intro _ pre acc
    simp [wordScanGo]
  | cons c cs' ih =>
    intro hnd pre acc
    have hc : c ≠ '-' := hnd c (by simp)
    by_cases hws : isPyWs c = true
    · simp [wordScanGo, hc, hws, List.takeWhile_cons, List.dropWhile_cons]
    · have hed : emDashAhead (c :: cs') = false := by
        simp [emDashAhead, leadDashes, List.takeWhile_cons, hc]
      simp only [wordScanGo, hc, hws, hed, Bool.false_and, Bool.and_false,
        decide_eq_true_eq, if_false, if_neg, Bool.false_eq_true, not_false_eq_true]
      rw [ih (fun x hx => hnd x (List.mem_cons_of_mem _ hx)) pre (c :: acc)]
      simp [List.takeWhile_cons, List.dropWhile_cons, hws, List.append_assoc]

theorem wordsep_splitAux_nodash :
    ∀ (fuel : Nat) (cs : Str), cs.length < fuel → (∀ c ∈ cs, c ≠ '-') →
    ∀ pre, wordsep_splitAux fuel pre cs = rawRuns cs := by
  intro fuel
  induction fuel with
  | zero =>
    intro cs h
    exact absurd h (Nat.not_lt_zero _)
  | succ fuel ih =>
    intro cs hlen hnd pre
    cases cs with
    | nil => simp [wordsep_splitAux, rawRuns]
    | cons c cs' =>
      have hlen' : cs'.length < fuel := by simpa using hlen
      have hnd' : ∀ x ∈ cs', x ≠ '-' :=
        fun x hx => hnd x (List.mem_cons_of_mem _ hx)
      have hc : c ≠ '-' := hnd c (by simp)
      by_cases hws : isPyWs c = true
      · simp only [wordsep_splitAux, hws, if_true, if_pos]
        rw [rawRuns_cons_ws cs' hws]
        congr 1
        apply ih
        · rw [List.dropWhile_cons, if_pos hws]
          exact lt_of_le_of_lt ((List.dropWhile_sublist _).length_le) hlen'
        · intro x hx
          exact hnd x ((List.dropWhile_sublist _).mem hx)
      · have hed : emDashAhead (c :: cs') = false := by
          simp [emDashAhead, leadDashes, List.takeWhile_cons, hc]
        simp only [wordsep_splitAux, hws, hed, Bool.and_false, if_false,
          Bool.false_eq_true, not_false_eq_true, if_neg]
        rw [wordScanGo_nodash cs' hnd' pre [c]]
        rw [rawRuns_cons_nonws cs' (by simpa using hws)]
        simp only [List.takeWhile_cons, List.dropWhile_cons, hws,
          Bool.not_false, if_true, List.reverse_cons, List.reverse_nil,
          List.nil_append, List.singleton_append]
        congr 1
        apply ih
        · exact lt_of_le_of_lt ((List.dropWhile_sublist _).length_le) hlen'
        · intro x hx
          exact hnd' x ((List.dropWhile_sublist _).mem hx)

theorem wordsep_split_nodash (t : Str) (hnd : ∀ c ∈ t, c ≠ '-') :
    wordsep_split t = rawRuns t :=
  wordsep_splitAux_nodash (t.length + 1) t (Nat.lt_succ_self _) hnd []

/-! ### `_munge_whitespace` preserves the word sequence. -/

theorem wordsAux_map {g : Char → Char} (h1 : ∀ c, isPyWs (g c) = isPyWs c)
    (h2 : ∀ c, isPyWs c = false → g c = c) :
    ∀ (t : Str) (acc : Str), wordsAux acc (t.map g) = wordsAux acc t := by
  intro t
  induction t with
  | nil => intro acc; rfl
  | cons c cs ih =>
    intro acc
    by_cases hws : isPyWs c = true
    · rw [List.map_cons, wordsAux_ws_cons (by rw [h1]; exact hws),
          wordsAux_ws_cons hws, ih]
    · have hws' : isPyWs c = false := by simpa using hws
      rw [List.map_cons, wordsAux_nonws_cons (by rw [h1]; exact hws'),
          h2 c hws', wordsAux_nonws_cons hws', ih]

theorem wordsAux_replicate_space :
    ∀ (k : Nat), 1 ≤ k → ∀ (acc r : Str),
      wordsAux acc (List.replicate k ' ' ++ r) =
        (if acc = [] then [] else [acc.reverse]) ++ wordsAux [] r := by
  intro k
  induction k with
  | zero => intro h; exact absurd h (by decide)
  | succ k ih =>
    intro _ acc r
    rw [List.replicate_succ, List.cons_append, wordsAux_ws_cons (by decide)]
    cases k with
    | zero => simp
    | succ k' =>
      rw [ih (Nat.succ_le_succ (Nat.zero_le _))]
      simp

theorem wordsAux_expandtabs :
    ∀ (t : Str) (col : Nat) (acc : Str),
      wordsAux acc (expandtabsAux col t) = wordsAux acc t := by
  intro t
  induction t with
  | nil => intro col acc; rfl
  | cons c cs ih =>
    intro col acc
    by_cases ht : c = '\t'
    · subst ht
      have hx : expandtabsAux col ('\t' :: cs) =
          List.replicate (8 - col % 8) ' ' ++ expandtabsAux (col + (8 - col % 8)) cs := by
        simp [expandtabsAux]
      rw [hx, wordsAux_replicate_space _
        (by have := Nat.mod_lt col (show 0 < 8 by norm_num); omega) acc _, ih,
        wordsAux_ws_cons (by decide) acc cs]
    · by_cases hnl : c = '\n' ∨ c = '\r'
      · have hx : expandtabsAux col (c :: cs) = c :: expandtabsAux 0 cs := by
          simp [expandtabsAux, ht, hnl]
        have hws : isPyWs c = true := by
          rcases hnl with h | h <;> subst h <;> decide
        rw [hx, wordsAux_ws_cons hws, wordsAux_ws_cons hws, ih]
      · have hx : expandtabsAux col (c :: cs) = c :: expandtabsAux (col + 1) cs := by
          simp [expandtabsAux, ht, hnl]
        rw [hx]
        by_cases hws : isPyWs c = true
        · rw [wordsAux_ws_cons hws, wordsAux_ws_cons hws, ih]
        · have hws' : isPyWs c = false := by simpa using hws
          rw [wordsAux_nonws_cons hws', wordsAux_nonws_cons hws', ih]

theorem wordsOf_munge (t : Str) : wordsOf (munge_whitespace t) = wordsOf t := by
  unfold munge_whitespace wordsOf
  rw [wordsAux_map (g := fun c => if isPyWs c then ' ' else c)
      (fun c => by by_cases h : isPyWs c = true <;> simp [h] <;> decide)
      (fun c h => by simp [h]),
    wordsAux_expandtabs]

theorem mem_expandtabs :
    ∀ (t : Str) (col : Nat) (c : Char),
      c ∈ expandtabsAux col t → c = ' ' ∨ c ∈ t := by
  intro t
  induction t with
  | nil =>
    intro col c h
    simp [expandtabsAux] at h
  | cons d ds ih =>
    intro col c h
    by_cases ht : d = '\t'
    · subst ht
      have hx : expandtabsAux col ('\t' :: ds) =
          List.replicate (8 - col % 8) ' ' ++ expandtabsAux (col + (8 - col % 8)) ds := by
        simp [expandtabsAux]
      rw [hx] at h
      rcases List.mem_append.mp h with h | h
      · exact Or.inl (List.eq_of_mem_replicate h)
      · rcases ih _ _ h with h | h
        · exact Or.inl h
        · exact Or.inr (List.mem_cons_of_mem _ h)
    · have hx : expandtabsAux col (d :: ds) =
          d :: expandtabsAux (if d = '\n' ∨ d = '\r' then 0 else col + 1) ds := by
        by_cases hnl : d = '\n' ∨ d = '\r' <;> simp [expandtabsAux, ht, hnl]
      rw [hx] at h
      rcases List.mem_cons.mp h with h | h
      · exact Or.inr (h ▸ List.mem_cons_self _ _)
      · rcases ih _ _ h with h | h
        · exact Or.inl h
        · exact Or.inr (List.mem_cons_of_mem _ h)

theorem munge_nodash {t : Str} (h : ∀ c ∈ t, c ≠ '-') :
    ∀ c ∈ munge_whitespace t, c ≠ '-' := by
  intro c hc
  unfold munge_whitespace at hc
  rcases List.mem_map.mp hc with ⟨d, hd, hgd⟩
  rcases mem_expandtabs t 0 d hd with h0 | h0
  · subst h0
    rw [← hgd]
    decide
  · intro hdash
    rw [hdash] at hgd
    by_cases hws : isPyWs d = true
    · rw [if_pos hws] at hgd
      exact absurd hgd (by decide)
    · rw [if_neg hws] at hgd
      exact h d h0 hgd

/-! ### Properties of the greedy line filler. -/

theorem wflat_append (a b : List Str) : wflat (a ++ b) = wflat a ++ wflat b := by
  simp [wflat]

theorem all_of_sublist {α : Type} {p : α → Bool} {l₁ l₂ : List α}
    (hs : l₁.Sublist l₂) (h : l₂.all p = true) : l₁.all p = true := by
  rw [List.all_eq_true] at h ⊢
  exact fun x hx => h x (hs.mem hx)

theorem greedyTake_spec (width : Nat) :
    ∀ (cs : List Str) (curLen : Nat) (acc : List Str),
      ∃ taken rest,
        greedyTake width curLen acc cs = (acc ++ taken, curLen + sumLen taken, rest) ∧
        cs = taken ++ rest ∧
        (taken ≠ [] → curLen + sumLen taken ≤ width) ∧
        (∀ c cs', rest = c :: cs' → width < curLen + sumLen taken + c.length) := by
  intro cs
  induction cs with
  | nil =>
    intro curLen acc
    exact ⟨[], [], by simp [greedyTake, sumLen], by simp,
      fun h => absurd rfl h, fun c cs' h => by simp at h⟩
  | cons c cs' ih =>
    intro curLen acc
    by_cases hfit : curLen + c.length ≤ width
    · obtain ⟨taken, rest, h1, h2, h3, h4⟩ := ih (curLen + c.length) (acc ++ [c])
      refine ⟨c :: taken, rest, ?_, by simp [h2], ?_, ?_⟩
      · rw [show greedyTake width curLen acc (c :: cs') =
            greedyTake width (curLen + c.length) (acc ++ [c]) cs' from by
          simp [greedyTake, hfit]]
        rw [h1]
        refine Prod.ext (by simp) (Prod.ext ?_ rfl)
        show curLen + c.length + sumLen taken = curLen + sumLen (c :: taken)
        simp [sumLen]
        omega
      · intro _
        by_cases htk : taken = []
        · subst htk
          simpa [sumLen] using hfit
        · have hb := h3 htk
          simp only [sumLen, List.map_cons, List.sum_cons] at hb ⊢
          omega
      · intro d ds hrest
        have := h4 d ds hrest
        simp only [sumLen, List.map_cons, List.sum_cons] at this ⊢
        omega
    · refine ⟨[], c :: cs', ?_, by simp, fun h => absurd rfl h, ?_⟩
      · simp [greedyTake, hfit, sumLen]
      · intro d ds hrest
        have hd : d = c := (List.cons.injEq _ _ _ _ ▸ hrest).1.symm
        subst hd
        simp only [sumLen, List.map_nil, List.sum_nil]
        omega

theorem rfindDash_lt : ∀ {s : Str} {hy : Nat}, rfindDash s = some hy → hy < s.length := by
  intro s
  induction s with
  | nil => intro hy h; simp [rfindDash] at h
  | cons c cs ih =>
    intro hy h
    simp only [rfindDash] at h
    cases hr : rfindDash cs with
    | some i =>
      rw [hr] at h
      simp only [Option.some.injEq] at h
      have := ih hr
      simp
      omega
    | none =>
      rw [hr] at h
      by_cases hc : c = '-'
      · rw [if_pos hc] at h
        simp only [Option.some.injEq] at h
        simp
        omega
      · rw [if_neg hc] at h
        simp at h

theorem handle_long_word_spec (width curLen : Nat) (c : Str)
    (hw : 1 ≤ width) (hcl : curLen ≤ width) :
    ∃ en, en ≤ width - curLen ∧ (curLen < width → 1 ≤ en) ∧
      handle_long_word width curLen c = (c.take en, c.drop en) := by
  unfold handle_long_word
  dsimp only
  rw [if_neg (by omega : ¬ width < 1)]
  by_cases hsp : width - curLen < c.length
  · rw [if_pos hsp]
    cases hr : rfindDash (c.take (width - curLen)) with
    | none =>
      exact ⟨width - curLen, le_refl _, fun h => by omega, rfl⟩
    | some hy =>
      by_cases hcond : 0 < hy ∧ (c.take hy).any (fun x => x ≠ '-') = true
      · have hlt : hy < (c.take (width - curLen)).length := rfindDash_lt hr
        have hhy : hy < width - curLen := lt_of_lt_of_le hlt (by simp)
        have hcond' : 0 < hy ∧ ∃ x ∈ c.take hy, ¬ x = '-' := by
          simpa using hcond
        refine ⟨hy + 1, by omega, fun _ => by omega, ?_⟩
        simp [hcond'.1, hcond'.2]
      · have hcond' : ¬ (0 < hy ∧ ∃ x ∈ c.take hy, ¬ x = '-') := by
          simpa using hcond
        refine ⟨width - curLen, le_refl _, fun h => by omega, ?_⟩
        simp [hcond']
  · rw [if_neg hsp]
    exact ⟨width - curLen, le_refl _, fun h => by omega, rfl⟩

theorem dropTrailWs_spec (cur : List Str) :
    dropTrailWs cur = cur ∨
    ∃ pre last, cur = pre ++ [last] ∧ last.all isPyWs = true ∧
      dropTrailWs cur = pre := by
  cases hlast : cur.getLast? with
  | none => exact Or.inl (by simp [dropTrailWs, hlast])
  | some last =>
    by_cases hws : last.all isPyWs = true
    · right
      have hne : cur ≠ [] := by
        intro h
        rw [h] at hlast
        simp at hlast
      have hsplit : cur.dropLast ++ [last] = cur := by
        have h1 := List.dropLast_append_getLast hne
        have h2 : cur.getLast hne = last := by
          have := List.getLast?_eq_getLast cur hne
          rw [hlast] at this
          exact (Option.some_inj.mp this).symm
        rw [h2] at h1
        exact h1
      exact ⟨cur.dropLast, last, hsplit.symm, hws, by simp [dropTrailWs, hlast, hws]⟩
    · exact Or.inl (by simp [dropTrailWs, hlast, hws])

/-! ### Joining a line whose pieces alternate words and whitespace keeps the
word sequence. -/

theorem wordsOf_flatten_chain :
    ∀ (L : List Str),
      (∀ x ∈ L, x ≠ [] ∧ (x.all isPyWs = true ∨ x.all (fun c => !isPyWs c) = true)) →
      L.Chain' (fun a b => a.all isPyWs = true ∨ b.all isPyWs = true) →
      wordsOf L.flatten = wflat L := by
  intro L
  induction L with
  | nil => intro _ _; rfl
  | cons a L' ih =>
    intro hmem hch
    have ha := hmem a (by simp)
    have htail := ih (fun x hx => hmem x (List.mem_cons_of_mem _ hx))
      ((List.chain'_cons'.mp hch).2)
    rcases ha.2 with haws | hanws
    · show wordsOf (a ++ L'.flatten) = wflat (a :: L')
      rw [wordsOf_ws_append haws, htail]
      show _ = wordsOf a ++ _
      rw [wordsOf_all_ws haws]
      rfl
    · cases L' with
      | nil =>
        show wordsOf (a ++ []) = wflat [a]
        rw [List.append_nil, wordsOf_all_nonws hanws ha.1]
        simp [wflat, wordsOf_all_nonws hanws ha.1]
      | cons b L'' =>
        have hab := (List.chain'_cons.mp hch).1
        have hbws : b.all isPyWs = true := by
          rcases hab with h | h
          · exfalso
            cases hx : a with
            | nil => exact ha.1 hx
            | cons d a' =>
              rw [hx] at h hanws
              simp at h hanws
              rw [h.1] at hanws
              simp at hanws
          · exact h
        have hbne := (hmem b (by simp)).1
        obtain ⟨d, b', hb⟩ : ∃ d b', b = d :: b' := by
          cases b with
          | nil => exact absurd rfl hbne
          | cons d b' => exact ⟨d, b', rfl⟩
        have hdws : isPyWs d = true := by
          have hx := hbws
          rw [hb] at hx
          simp at hx
          exact hx.1
        show wordsOf (a ++ (b :: L'').flatten) = wflat (a :: b :: L'')
        have hflat : (b :: L'').flatten = d :: (b' ++ L''.flatten) := by
          rw [hb]
          simp
        rw [hflat, wordsOf_word_append hanws ha.1
          (Or.inr ⟨d, b' ++ L''.flatten, rfl, hdws⟩), ← hflat, htail]
        show _ = wordsOf a ++ _
        rw [wordsOf_all_nonws hanws ha.1]
        rfl

/-- The invariant of the chunk list threaded through `_wrap_chunks` (on
hyphen-free input with short words): chunks are nonempty, homogeneous, word
chunks fit in the width, and no two word chunks are adjacent. -/
def goodChunks (width : Nat) (L : List Str) : Prop :=
  (∀ x ∈ L, x ≠ [] ∧
    (x.all isPyWs = true ∨ (x.all (fun c => !isPyWs c) = true ∧ x.length ≤ width))) ∧
  L.Chain' (fun a b => a.all isPyWs = true ∨ b.all isPyWs = true)

theorem goodChunks_suffix {width : Nat} {L L' : List Str}
    (h : goodChunks width L) (hs : L' <:+ L) : goodChunks width L' :=
  ⟨fun x hx => h.1 x (hs.sublist.mem hx), h.2.suffix hs⟩

/-- Case analysis of one `_wrap_chunks` iteration: the greedy fill takes
`taken`, then either nothing is split, or an over-wide head chunk is split
by `_handle_long_word`. -/
theorem wrapStep_cases (width : Nat) (hw : 1 ≤ width) (lines : List Str)
    (c0 : Str) (rest0 : List Str) :
    ∃ taken rest cur2 rest2,
      (if c0.all isPyWs && !lines.isEmpty then rest0 else c0 :: rest0) =
        taken ++ rest ∧
      sumLen taken ≤ width ∧
      ((cur2 = taken ∧ rest2 = rest ∧
          ∀ c cs', rest = c :: cs' → ¬ width < c.length) ∨
       (∃ c cs en, rest = c :: cs ∧ width < c.length ∧
         en ≤ width - sumLen taken ∧ (sumLen taken < width → 1 ≤ en) ∧
         cur2 = taken ++ [c.take en] ∧ rest2 = c.drop en :: cs)) ∧
      ((taken = [] ∧ rest ≠ []) → width < sumLen taken +
        (rest.headD []).length) ∧
      wrapStep width lines c0 rest0 =
        ((if dropTrailWs cur2 ≠ [] then lines ++ [(dropTrailWs cur2).flatten]
          else lines), rest2) := by
  obtain ⟨taken, rest, hgt, hsplit, hbound, hstop⟩ :=
    greedyTake_spec width
      (if c0.all isPyWs && !lines.isEmpty then rest0 else c0 :: rest0) 0 []
  have hgt' : greedyTake width 0 []
      (if c0.all isPyWs && !lines.isEmpty then rest0 else c0 :: rest0) =
      (taken, sumLen taken, rest) := by simpa using hgt
  have hsum : sumLen taken ≤ width := by
    by_cases h : taken = []
    · subst h
      simp [sumLen]
    · simpa using hbound h
  have hstop' : (taken = [] ∧ rest ≠ []) →
      width < sumLen taken + (rest.headD []).length := by
    rintro ⟨h1, h2⟩
    cases hr : rest with
    | nil => exact absurd hr h2
    | cons c cs' =>
      have := hstop c cs' hr
      simpa using this
  cases hrest : rest with
  | nil =>
    rw [hrest] at hgt' hsplit
    refine ⟨taken, [], taken, [], hsplit, hsum,
      Or.inl ⟨rfl, rfl, fun c cs' h => by simp at h⟩,
      by simp, ?_⟩
    unfold wrapStep
    dsimp only
    rw [hgt']
  | cons c cs =>
    rw [hrest] at hgt' hsplit hstop'
    by_cases hord : width < c.length
    · obtain ⟨en, hen1, hen2, heq⟩ :=
        handle_long_word_spec width (sumLen taken) c hw hsum
      refine ⟨taken, c :: cs, taken ++ [c.take en], c.drop en :: cs, hsplit,
        hsum, Or.inr ⟨c, cs, en, rfl, hord, hen1, hen2, rfl, rfl⟩,
        hstop', ?_⟩
      unfold wrapStep
      dsimp only
      rw [hgt']
      dsimp only
      rw [if_pos hord, heq]
    · refine ⟨taken, c :: cs, taken, c :: cs, hsplit, hsum,
        Or.inl ⟨rfl, rfl, fun d ds h => by
          have hd : c = d := ((List.cons.injEq _ _ _ _).mp h).1
          rw [← hd]
          exact hord⟩,
        hstop', ?_⟩
      unfold wrapStep
      dsimp only
      rw [hgt']
      dsimp only
      rw [if_neg hord]

theorem chunksMeasure_append (a b : List Str) :
    chunksMeasure (a ++ b) = chunksMeasure a + chunksMeasure b := by
  simp [chunksMeasure]
  omega

theorem chunksMeasure_cons (x : Str) (l : List Str) :
    chunksMeasure (x :: l) = x.length + 1 + chunksMeasure l := by
  simp [chunksMeasure]
  omega

/-- Every line emitted by one step fits in the width. -/
theorem wrapStep_lines (width : Nat) (hw : 1 ≤ width) (lines : List Str)
    (c0 : Str) (rest0 : List Str)
    (hl : ∀ l ∈ lines, l.length ≤ width) :
    ∀ l ∈ (wrapStep width lines c0 rest0).1, l.length ≤ width := by
  obtain ⟨taken, rest, cur2, rest2, hsplit, hsum, hcase, hstop, heq⟩ :=
    wrapStep_cases width hw lines c0 rest0
  rw [heq]
  by_cases hne : dropTrailWs cur2 ≠ []
  · rw [if_pos hne]
    intro l hl'
    rcases List.mem_append.mp hl' with h | h
    · exact hl l h
    · have hll : l = (dropTrailWs cur2).flatten := by simpa using h
      subst hll
      have h1 : sumLen (dropTrailWs cur2) ≤ sumLen cur2 := by
        rcases dropTrailWs_spec cur2 with h | ⟨pre, last, hc, hws, hd⟩
        · rw [h]
        · rw [hd, hc]
          simp [sumLen]
      have h2 : sumLen cur2 ≤ width := by
        rcases hcase with ⟨hc2, _, _⟩ | ⟨c, cs, en, _, _, hen1, _, hc2, _⟩
        · rw [hc2]
          exact hsum
        · rw [hc2]
          have htk : (c.take en).length ≤ en := by simp
          simp only [sumLen, List.map_append, List.sum_append, List.map_cons,
            List.sum_cons, List.map_nil, List.sum_nil] at hen1 hsum ⊢
          omega
      calc ((dropTrailWs cur2).flatten).length
          = sumLen (dropTrailWs cur2) := by simp [sumLen]
        _ ≤ sumLen cur2 := h1
        _ ≤ width := h2
  · rw [if_neg hne]
    exact hl

/-- The chunk measure strictly decreases at every step. -/
theorem wrapStep_measure (width : Nat) (hw : 1 ≤ width) (lines : List Str)
    (c0 : Str) (rest0 : List Str) :
    chunksMeasure (wrapStep width lines c0 rest0).2 <
      chunksMeasure (c0 :: rest0) := by
  obtain ⟨taken, rest, cur2, rest2, hsplit, hsum, hcase, hstop, heq⟩ :=
    wrapStep_cases width hw lines c0 rest0
  rw [heq]
  show chunksMeasure rest2 < chunksMeasure (c0 :: rest0)
  have hrest2_le : chunksMeasure rest2 ≤ chunksMeasure rest := by
    rcases hcase with ⟨_, hr2, _⟩ | ⟨c, cs, en, hrc, _, _, _, _, hr2⟩
    · rw [hr2]
    · rw [hr2, hrc, chunksMeasure_cons, chunksMeasure_cons]
      have : (c.drop en).length ≤ c.length := by simp
      omega
  by_cases hdrop : (c0.all isPyWs && !lines.isEmpty) = true
  · rw [if_pos hdrop] at hsplit
    have : chunksMeasure rest ≤ chunksMeasure rest0 := by
      rw [hsplit, chunksMeasure_append]
      omega
    rw [chunksMeasure_cons]
    omega
  · rw [if_neg hdrop] at hsplit
    by_cases htaken : taken = []
    · subst htaken
      rw [List.nil_append] at hsplit
      rcases hcase with ⟨_, hr2, hnos⟩ | ⟨c, cs, en, hrc, hord, hen1, hen2, hc2, hr2⟩
      · exfalso
        have hne : rest ≠ [] := by
          rw [← hsplit]
          simp
        have := hstop ⟨rfl, hne⟩
        cases hr : rest with
        | nil => exact hne hr
        | cons d ds =>
          have hd := hnos d ds hr
          rw [hr] at this
          simp only [List.headD_cons, sumLen, List.map_nil, List.sum_nil] at this
          omega
      · have hen : 1 ≤ en := hen2 (by simpa [sumLen] using hw)
        rw [hr2, hsplit, hrc, chunksMeasure_cons, chunksMeasure_cons]
        have h1 : (c.drop en).length = c.length - en := by simp
        have h2 : en ≤ c.length := by
          have := hen1
          omega
        omega
    · have hm : 1 ≤ chunksMeasure taken := by
        cases taken with
        | nil => exact absurd rfl htaken
        | cons t ts =>
          rw [chunksMeasure_cons]
          omega
      rw [hsplit, chunksMeasure_append]
      omega

/-- Emitting a (non-dropped) line preserves the accumulated words. -/
theorem emitLine_words (lines X : List Str)
    (hmem : ∀ x ∈ X, x ≠ [] ∧
      (x.all isPyWs = true ∨ x.all (fun c => !isPyWs c) = true))
    (hch : X.Chain' (fun a b => a.all isPyWs = true ∨ b.all isPyWs = true)) :
    wflat (if X ≠ [] then lines ++ [X.flatten] else lines) =
      wflat lines ++ wflat X := by
  by_cases hne : X ≠ []
  · rw [if_pos hne, wflat_append]
    have : wflat [X.flatten] = wordsOf X.flatten := by simp [wflat]
    rw [this, wordsOf_flatten_chain X hmem hch]
  · rw [if_neg hne]
    have hX : X = [] := not_not.mp hne
    subst hX
    simp [wflat]

/-- A prefix of a chain is a chain. -/
theorem chain_of_pref {R : Str → Str → Prop} {l l' : List Str}
    (hch : l.Chain' R) (hpre : l' <+: l) : l'.Chain' R := by
  rw [List.prefix_iff_eq_take.mp hpre]
  exact List.Chain'.take hch _

/-- Emitting a line after the trailing-whitespace drop preserves words. -/
theorem emitLineDrop_words (lines X : List Str)
    (hmem : ∀ x ∈ X, x ≠ [] ∧
      (x.all isPyWs = true ∨ x.all (fun c => !isPyWs c) = true))
    (hch : X.Chain' (fun a b => a.all isPyWs = true ∨ b.all isPyWs = true)) :
    wflat (if dropTrailWs X ≠ [] then lines ++ [(dropTrailWs X).flatten]
      else lines) = wflat lines ++ wflat X := by
  rcases dropTrailWs_spec X with h | ⟨pre, last, hcX, hws, hd⟩
  · rw [h]
    exact emitLine_words lines X hmem hch
  · rw [hd]
    have hpre : pre <+: X := ⟨[last], hcX.symm⟩
    have hXw : wflat X = wflat pre := by
      rw [hcX, wflat_append]
      have : wflat [last] = wordsOf last := by simp [wflat]
      rw [this, wordsOf_all_ws hws, List.append_nil]
    rw [hXw]
    exact emitLine_words lines pre
      (fun x hx => hmem x (hpre.sublist.mem hx)) (chain_of_pref hch hpre)

/-- One step preserves the word sequence and the chunk invariant. -/
theorem wrapStep_words (width : Nat) (hw : 1 ≤ width) (lines : List Str)
    (c0 : Str) (rest0 : List Str) (hg : goodChunks width (c0 :: rest0)) :
    wflat (wrapStep width lines c0 rest0).1 ++
        wflat (wrapStep width lines c0 rest0).2 =
      wflat lines ++ wflat (c0 :: rest0) ∧
    goodChunks width (wrapStep width lines c0 rest0).2 := by
  obtain ⟨taken, rest, cur2, rest2, hsplit, hsum, hcase, hstop, heq⟩ :=
    wrapStep_cases width hw lines c0 rest0
  rw [heq]
  have hgood0 : goodChunks width (taken ++ rest) ∧
      wflat (taken ++ rest) = wflat (c0 :: rest0) := by
    by_cases hdrop : (c0.all isPyWs && !lines.isEmpty) = true
    · rw [if_pos hdrop] at hsplit
      have hc0 : c0.all isPyWs = true := by
        simp only [Bool.and_eq_true] at hdrop
        exact hdrop.1
      constructor
      · rw [← hsplit]
        exact goodChunks_suffix hg (List.suffix_cons c0 rest0)
      · rw [← hsplit]
        show wflat rest0 = wordsOf c0 ++ wflat rest0
        rw [wordsOf_all_ws hc0]
        rfl
    · rw [if_neg hdrop] at hsplit
      rw [← hsplit]
      exact ⟨hg, rfl⟩
  obtain ⟨hg0, hwf0⟩ := hgood0
  have hmem_taken : ∀ x ∈ taken, x ≠ [] ∧
      (x.all isPyWs = true ∨ x.all (fun c => !isPyWs c) = true) := by
    intro x hx
    have := hg0.1 x (List.mem_append.mpr (Or.inl hx))
    exact ⟨this.1, this.2.imp id And.left⟩
  have hch_taken : taken.Chain'
      (fun a b => a.all isPyWs = true ∨ b.all isPyWs = true) :=
    chain_of_pref hg0.2 ⟨rest, rfl⟩
  have hg_rest : goodChunks width rest :=
    goodChunks_suffix hg0 ⟨taken, rfl⟩
  have hwf_split : wflat (taken ++ rest) = wflat taken ++ wflat rest :=
    wflat_append taken rest
  rcases hcase with ⟨hc2, hr2, _⟩ | ⟨c, cs, en, hrc, hord, hen1, hen2, hc2, hr2⟩
  · subst hc2
    subst hr2
    constructor
    · show wflat (if dropTrailWs cur2 ≠ [] then lines ++ [(dropTrailWs cur2).flatten]
        else lines) ++ wflat rest2 = _
      rw [emitLineDrop_words lines cur2 hmem_taken hch_taken, ← hwf0, hwf_split]
      simp [List.append_assoc]
    · exact hg_rest
  · -- the head of `rest` is an over-wide (hence whitespace) chunk, split
    have hcmem := hg0.1 c (List.mem_append.mpr (Or.inr (by rw [hrc]; simp)))
    have hcws : c.all isPyWs = true := by
      rcases hcmem.2 with h | ⟨_, hlen⟩
      · exact h
      · omega
    have htkws : (c.take en).all isPyWs = true :=
      all_of_sublist (List.take_sublist en c) hcws
    have hdrws : (c.drop en).all isPyWs = true :=
      all_of_sublist (List.drop_sublist en c) hcws
    have hdrne : c.drop en ≠ [] := by
      have h1 : en < c.length := by omega
      intro h
      have := congrArg List.length h
      simp at this
      omega
    have hdt : dropTrailWs cur2 = taken := by
      rw [hc2]
      simp [dropTrailWs, List.getLast?_concat, htkws, List.dropLast_concat]
    constructor
    · show wflat (if dropTrailWs cur2 ≠ [] then lines ++ [(dropTrailWs cur2).flatten]
        else lines) ++ wflat rest2 = _
      rw [hdt, emitLine_words lines taken hmem_taken hch_taken, ← hwf0, hwf_split,
        hrc, hr2]
      show _ ++ (wordsOf (c.drop en) ++ wflat cs) =
        _ ++ (_ ++ (wordsOf c ++ wflat cs))
      rw [wordsOf_all_ws hdrws, wordsOf_all_ws hcws]
      simp [List.append_assoc]
    · subst hr2
      constructor
      · intro x hx
        rcases List.mem_cons.mp hx with hx | hx
        · subst hx
          exact ⟨hdrne, Or.inl hdrws⟩
        · have := hg_rest.1 x (by rw [hrc]; exact List.mem_cons_of_mem _ hx)
          exact this
      · refine List.chain'_cons'.mpr ⟨fun y _ => Or.inl hdrws, ?_⟩
        have := hg_rest.2
        rw [hrc] at this
        exact (List.chain'_cons'.mp this).2

/-- Every produced line fits in the width (any fuel). -/
theorem wrap_chunksGo_length (width : Nat) (hw : 1 ≤ width) :
    ∀ (fuel : Nat) (lines chunks : List Str),
      (∀ l ∈ lines, l.length ≤ width) →
      ∀ l ∈ wrap_chunksGo width fuel lines chunks, l.length ≤ width := by
  intro fuel
  induction fuel with
  | zero =>
    intro lines chunks h
    simpa [wrap_chunksGo] using h
  | succ fuel ih =>
    intro lines chunks hl
    cases chunks with
    | nil => simpa [wrap_chunksGo] using hl
    | cons c0 rest0 =>
      have hstep := wrapStep_lines width hw lines c0 rest0 hl
      cases hws : wrapStep width lines c0 rest0 with
      | mk lines' rest2 =>
        rw [hws] at hstep
        have hgo : wrap_chunksGo width (fuel + 1) lines (c0 :: rest0) =
            match rest2 with
            | [] => lines'
            | _ => wrap_chunksGo width fuel lines' rest2 := by
          show (match wrapStep width lines c0 rest0 with
                | (l', r2) => match r2 with
                  | [] => l'
                  | _ => wrap_chunksGo width fuel l' r2) = _
          simp only [hws]
          cases rest2 <;> rfl
        rw [hgo]
        cases rest2 with
        | nil => exact fun l h => hstep l h
        | cons r rs => exact ih lines' (r :: rs) (fun l h => hstep l h)

/-- With sufficient fuel and a good chunk list, the wrap loop's lines carry
exactly the accumulated words followed by the chunks' words. -/
theorem wrap_chunksGo_words (width : Nat) (hw : 1 ≤ width) :
    ∀ (fuel : Nat) (lines chunks : List Str),
      chunksMeasure chunks < fuel →
      goodChunks width chunks →
      wflat (wrap_chunksGo width fuel lines chunks) =
        wflat lines ++ wflat chunks := by
  intro fuel
  induction fuel with
  | zero =>
    intro lines chunks h _
    exact absurd h (Nat.not_lt_zero _)
  | succ fuel ih =>
    intro lines chunks hfuel hg
    cases chunks with
    | nil => simp [wrap_chunksGo, wflat]
    | cons c0 rest0 =>
      obtain ⟨hwords, hg2⟩ := wrapStep_words width hw lines c0 rest0 hg
      have hms := wrapStep_measure width hw lines c0 rest0
      cases hws : wrapStep width lines c0 rest0 with
      | mk lines' rest2 =>
        rw [hws] at hwords hg2 hms
        have hgo : wrap_chunksGo width (fuel + 1) lines (c0 :: rest0) =
            match rest2 with
            | [] => lines'
            | _ => wrap_chunksGo width fuel lines' rest2 := by
          show (match wrapStep width lines c0 rest0 with
                | (l', r2) => match r2 with
                  | [] => l'
                  | _ => wrap_chunksGo width fuel l' r2) = _
          simp only [hws]
          cases rest2 <;> rfl
        dsimp only at hwords hg2 hms
        rw [hgo]
        cases rest2 with
        | nil => simpa [wflat] using hwords
        | cons r rs =>
          rw [ih lines' (r :: rs) (by omega) hg2]
          exact hwords

/-- C2 (amended): for every text and every positive width, the wrap splitter
succeeds and every produced piece has length at most the width — this half of
the claim holds unconditionally.  The lossless half ("never splits mid-word;
single-space rejoin reproduces the words in order") holds provided the text
contains no hyphen and no word of the text is longer than the width: a word
longer than the width is split at the limit, and the break-on-hyphens rule
can split hyphenated words at the hyphen. -/
theorem C2_wrap_amended (t : Str) (width : Nat) (hw : 1 ≤ width) :
    ∃ ps, textwrap_wrap t width = some ps ∧
      (∀ p ∈ ps, p.length ≤ width) ∧
      ((∀ c ∈ t, c ≠ '-') → (∀ w ∈ wordsOf t, w.length ≤ width) →
        wordsOf (joinSp ps) = wordsOf t) := by
  have hw0 : ¬ width = 0 := by omega
  refine ⟨wrap_chunksGo width
      (chunksMeasure (wordsep_split (munge_whitespace t)) + 1) []
      (wordsep_split (munge_whitespace t)), ?_, ?_, ?_⟩
  · simp only [textwrap_wrap, if_neg hw0]
  · exact wrap_chunksGo_length width hw _ [] _ (by simp)
  · intro hnd hlen
    rw [wordsOf_joinSp]
    have hnd' := munge_nodash hnd
    have hsplit := wordsep_split_nodash (munge_whitespace t) hnd'
    obtain ⟨hmem, hchain, hwf, hwmem⟩ :=
      rawRuns_bundle (munge_whitespace t).length (munge_whitespace t) le_rfl
    have hlen' : ∀ w ∈ wordsOf (munge_whitespace t), w.length ≤ width := by
      intro w hw'
      exact hlen w (by rwa [wordsOf_munge] at hw')
    have hg : goodChunks width (wordsep_split (munge_whitespace t)) := by
      rw [hsplit]
      refine ⟨?_, hchain⟩
      intro x hx
      rcases hmem x hx with ⟨hne, hcase⟩
      refine ⟨hne, ?_⟩
      rcases hcase with h1 | h2
      · exact Or.inl h1
      · exact Or.inr ⟨h2, hlen' x (hwmem x hx h2)⟩
    rw [wrap_chunksGo_words width hw _ [] _ (Nat.lt_succ_self _) hg, hsplit, hwf,
      wordsOf_munge]
    rfl

set_option maxRecDepth 100000 in
/-- Counterexample to C2 as stated: at width 100 (inside the configured range
[100, 2000]), a single 101-character word is split in the middle, so the
break is not on a whitespace boundary and the single-space rejoin does not
reproduce the original word sequence. -/
theorem C2_counterexample :
    textwrap_wrap (List.replicate 101 'a') 100 =
      some [List.replicate 100 'a', ['a']] ∧
    wordsOf (joinSp [List.replicate 100 'a', ['a']]) ≠
      wordsOf (List.replicate 101 'a') := by
  constructor
  · decide
  · decide

/-- Witness for C2 at a concrete text and width. -/
theorem C2_witness :
    ∃ ps, textwrap_wrap (str "hi yo") 4 = some ps ∧
      (∀ p ∈ ps, p.length ≤ 4) ∧
      ((∀ c ∈ str "hi yo", c ≠ '-') → (∀ w ∈ wordsOf (str "hi yo"), w.length ≤ 4) →
        wordsOf (joinSp ps) = wordsOf (str "hi yo")) :=
  C2_wrap_amended (str "hi yo") 4 (by decide)
